import Mathlib

/-!
# AQL query builder of the Artifactory resource: a verification development

Shallow embedding of `artifactory/utils/aqlquerybuilder.go` and of the spec
classifier of `artifactory/utils/specUtils.go` (vendored `jfrog-cli-go`).  A Go
string is modelled as the list of its bytes, each byte written as the character
with the same code, so that every index and slice below is a byte index as in the
code; an ASCII text is the list of its characters, and `goBytes` gives the list
for any other text.
Go slice expressions and index expressions that would be out of range are
modelled by `none`.
-/

namespace Aql

/-- Go `string`: the list of its bytes, each byte written as the character with
the same code. -/
abbrev Str := List Char

/-! ## Go standard library functions used by the source -/

/-- Model of `strings.Index(s, c)` for a one-character separator: the index of
the first occurrence, or `-1`. -/
def strIndex (c : Char) : Str → Int
  | [] => -1
  | x :: xs =>
    if x = c then 0
    else if strIndex c xs < 0 then -1 else strIndex c xs + 1

/-- Model of `strings.LastIndex(s, c)` for a one-character separator: the index
of the last occurrence, or `-1`. -/
def strLastIndex (c : Char) : Str → Int
  | [] => -1
  | x :: xs =>
    if strLastIndex c xs < 0 then (if x = c then 0 else -1)
    else strLastIndex c xs + 1

/-- Go slice expression `s[lo:]`; `none` when out of range. -/
def sliceFrom (s : Str) (lo : Int) : Option Str :=
  if 0 ≤ lo ∧ lo ≤ s.length then some (s.drop lo.toNat) else none

/-- Go slice expression `s[:hi]`; `none` when out of range. -/
def sliceTo (s : Str) (hi : Int) : Option Str :=
  if 0 ≤ hi ∧ hi ≤ s.length then some (s.take hi.toNat) else none

/-- Model of `strings.HasSuffix(s, c)` for a one-character suffix. -/
def hasSuffixChar (c : Char) (s : Str) : Bool :=
  s.getLast? == some c

/-- Model of `strings.Replace(s, c, "", -1)`: every occurrence of `c` removed. -/
def removeChar (c : Char) (s : Str) : Str :=
  s.filter (fun x => x != c)

/-- Model of `strings.Split(s, c)` for a one-character separator: the pieces
between the occurrences of `c`; one more piece than there are occurrences. -/
def strSplit (c : Char) : Str → List Str
  | [] => [[]]
  | x :: xs =>
    if x = c then [] :: strSplit c xs
    else
      match strSplit c xs with
      | [] => [[x]]
      | p :: ps => (x :: p) :: ps

/-! ## The source: `aqlquerybuilder.go` -/

/-- The struct `PathFilePair`. -/
structure PathFilePair where
  path : Str
  file : Str
  deriving DecidableEq, Repr

/-- Inner `for j` loop of `createPathFilePairs`: re-joins the sections with `*`,
section `i` being replaced by `option`.  `j` is the loop counter, the list is
`sections[j:]`, `str` the string built so far. -/
def joinSections (i : Nat) (option : Str) : Nat → List Str → Str → Str
  | _, [], str => str
  | j, s :: rest, str =>
    let str1 := if j > 0 then str ++ "*".toList else str
    let str2 := if j = i then str1 ++ option else str1 ++ s
    joinSections i option (j + 1) rest str2

/-- Body of the `for _, option := range options` loop of `createPathFilePairs`,
run over the whole list `options`; the state is the variable `path` and the
slice `pairs`.  `split[0]` and `split[1]` out of range give `none`. -/
def optionsLoop (sections : List Str) (i : Nat) :
    List Str → Str × List PathFilePair → Option (Str × List PathFilePair)
  | [], st => some st
  | option :: more, (path, pairs) =>
    let str := joinSections i option 0 sections []
    let split := strSplit '/' str
    match split[0]?, split[1]? with
    | some filePath, some fileName0 =>
      let fileName := if fileName0 = [] then "*".toList else fileName0
      let path1 := if path ≠ [] then path ++ "/".toList else path
      optionsLoop sections i more (path1, pairs ++ [⟨path1 ++ filePath, fileName⟩])
    | _, _ => none

/-- Outer `for i` loop of `createPathFilePairs`.  `i` is the loop counter and the
list is `sections[i:]`. -/
def sectionsLoop (sections : List Str) :
    Nat → List Str → Str × List PathFilePair → Option (Str × List PathFilePair)
  | _, [], st => some st
  | i, s :: rest, st =>
    let options := if i + 1 < sections.length then [s ++ "*/".toList] else []
    match optionsLoop sections i options st with
    | none => none
    | some st1 => sectionsLoop sections (i + 1) rest st1

/-- The function `createPathFilePairs`; `none` stands for a run-time panic. -/
def createPathFilePairs (pattern : Str) (recursive : Bool) : Option (List PathFilePair) :=
  let defaultPath := if recursive then "*".toList else ".".toList
  if pattern = "*".toList then
    some [⟨defaultPath, "*".toList⟩]
  else
    let slashIndex := strLastIndex '/' pattern
    let split : Option (Str × Str × List PathFilePair) :=
      if slashIndex < 0 then
        some ([], pattern, [⟨".".toList, pattern⟩])
      else
        match sliceTo pattern slashIndex, sliceFrom pattern (slashIndex + 1) with
        | some path, some name => some (path, name, [⟨path, name⟩])
        | _, _ => none
    match split with
    | none => none
    | some (path, name, pairs) =>
      if !recursive then some pairs
      else if name = "*".toList then
        some (pairs ++ [⟨path ++ "/*".toList, "*".toList⟩])
      else
        let sections := strSplit '*' name
        match sectionsLoop sections 0 sections (path, pairs) with
        | none => none
        | some (_, pairs1) => some pairs1


/-- The function `prepareSearchPattern`. -/
def prepareSearchPattern (pattern : Str) : Str :=
  let index := strIndex '/' pattern
  let pattern1 := if index < 0 then pattern ++ "/".toList else pattern
  let pattern2 := if hasSuffixChar '/' pattern1 then pattern1 ++ "*".toList else pattern1
  removeChar ')' (removeChar '(' pattern2)

/-- One rendered property clause, the string appended to `query` in the loop of
`buildPropsQuery`. -/
def propClause (key value : Str) : Str :=
  "\"@".toList ++ key ++ "\": \x7b\"$match\" : \"".toList ++ value ++ "\"\x7d,".toList

/-- The `for _, prop := range propList` loop of `buildPropsQuery`.  The key/value
splitter `SplitProp` is not part of the sources at hand and is a parameter: it
returns a key, a value and an optional error. -/
def propsLoop {ε : Type} (splitProp : Str → Str × Str × Option ε) :
    List Str → Str → Str × Option ε
  | [], query => (query, none)
  | prop :: rest, query =>
    match splitProp prop with
    | (_, _, some err) => ([], some err)
    | (key, value, none) => propsLoop splitProp rest (query ++ propClause key value)

/-- The function `buildPropsQuery`, returning the fragment and the error. -/
def buildPropsQuery {ε : Type} (splitProp : Str → Str × Str × Option ε) (props : Str) :
    Str × Option ε :=
  if props = [] then ([], none)
  else propsLoop splitProp (strSplit ';' props) []

/-- The function `buildInnerQuery`. -/
def buildInnerQuery (path name itemType : Str) : Str :=
  let itemTypeQuery :=
    if itemType ≠ [] then ",\"type\": \x7b\"$eq\": \"".toList ++ itemType ++ "\"\x7d".toList else []
  let nePath :=
    if itemType = "folder".toList ∧ path = "*".toList ∧ name = "*".toList then
      "\"path\": \x7b\"$ne\": \".\"\x7d,".toList
    else []
  "\"$and\": [\x7b\"path\": \x7b\"$match\": \"".toList ++ path ++ "\"\x7d,".toList ++ nePath ++
    "\"name\": \x7b\"$match\": \"".toList ++ name ++ "\"\x7d".toList ++ itemTypeQuery ++ "\x7d]".toList

/-- The loop of `buildAqlReturnFieldsString`; `i` is the index of the head of
the list and `len` is `len(returnFields)`. -/
def returnFieldsLoop (len : Nat) : Nat → List Str → Str → Str
  | _, [], fieldsString => fieldsString
  | i, value :: rest, fieldsString =>
    let s1 := fieldsString ++ value
    let s2 := if (i : Int) < (len : Int) - 1 then s1 ++ ",".toList else s1
    returnFieldsLoop len (i + 1) rest s2

/-- The function `buildAqlReturnFieldsString`. -/
def buildAqlReturnFieldsString (returnFields : List Str) : Str :=
  returnFieldsLoop returnFields.length 0 returnFields []

/-- The `for i := 0; i < size; i++` loop shared by `BuildAqlSearchQuery` and
`BuildAqlFolderSearchQuery`: one braced clause per pair, a comma after every
clause but the last.  `i` is the index of the head of the list. -/
def clausesLoop (itemType : Str) (size : Nat) : Nat → List PathFilePair → Str → Str
  | _, [], json => json
  | i, pair :: rest, json =>
    let json1 := json ++ "\x7b".toList ++ buildInnerQuery pair.path pair.file itemType ++ "\x7d".toList
    let json2 := if i + 1 < size then json1 ++ ",".toList else json1
    clausesLoop itemType size (i + 1) rest json2

/-- The function `BuildAqlSearchQuery`.  The outer `Option` is `none` for a
run-time panic; otherwise the returned query string and the returned error. -/
def BuildAqlSearchQuery {ε : Type} (splitProp : Str → Str × Str × Option ε)
    (searchPattern : Str) (recursive : Bool) (props : Str) (aqlReturnFields : List Str) :
    Option (Str × Option ε) :=
  let searchPattern1 := prepareSearchPattern searchPattern
  let index := strIndex '/' searchPattern1
  match sliceTo searchPattern1 index, sliceFrom searchPattern1 (index + 1) with
  | some repo, some searchPattern2 =>
    match createPathFilePairs searchPattern2 recursive with
    | none => none
    | some pairs =>
      let size := pairs.length
      match buildPropsQuery splitProp props with
      | (_, some err) => some ([], some err)
      | (propsQuery, none) =>
        let json := "\x7b\"repo\": \"".toList ++ repo ++ "\",".toList ++ propsQuery ++ "\"$or\": [".toList
        let json1 :=
          if size = 0 then
            json ++ "\x7b".toList ++ buildInnerQuery ".".toList searchPattern2 [] ++ "\x7d".toList
          else clausesLoop [] size 0 pairs json
        let json2 := json1 ++ "]\x7d".toList
        some ("items.find(".toList ++ json2 ++ ").include(".toList ++
          buildAqlReturnFieldsString aqlReturnFields ++ ")".toList, none)
  | _, _ => none

/-! ### Folder search -/

/-- One step of Go's `filepath.Clean` (Unix), read element by element: empty and
`.` elements are dropped, a `..` element removes the preceding non-`..` element,
is dropped at the root, and is kept otherwise. -/
def cleanStep (rooted : Bool) (out : List Str) (seg : Str) : List Str :=
  if seg = [] ∨ seg = ".".toList then out
  else if seg = "..".toList then
    match out.getLast? with
    | some last =>
      if last ≠ "..".toList then out.dropLast
      else if rooted then out else out ++ [seg]
    | none => if rooted then out else out ++ [seg]
  else out ++ [seg]

/-- Model of Go's `filepath.Clean` on Unix, after its documentation. -/
def pathClean (path : Str) : Str :=
  if path = [] then ".".toList
  else
    let rooted := path.head? == some '/'
    let out := (strSplit '/' path).foldl (cleanStep rooted) []
    let body := "/".toList.intercalate out
    if rooted then '/' :: body
    else if out = [] then ".".toList else body

/-- Model of Go's `filepath.Join` on Unix: leading empty elements are skipped, the
rest is joined with `/` and cleaned; no non-empty element gives `""`. -/
def filepathJoin (elem : List Str) : Str :=
  match elem.dropWhile (fun e => e = []) with
  | [] => []
  | es => pathClean ("/".toList.intercalate es)

/-- The `for i` loop of `createPathFolderPairs`; `i` is the loop counter and the
list is `lastSlashPath[i:]`. -/
def folderLoop (path lastSlashPath : Str) : Nat → Str → List PathFilePair → List PathFilePair
  | _, [], pairs => pairs
  | i, c :: rest, pairs =>
    let pairs1 :=
      if c = '*' then
        pairs ++ [⟨filepathJoin [path, lastSlashPath.take (i + 1)], lastSlashPath.drop i⟩]
      else pairs
    folderLoop path lastSlashPath (i + 1) rest pairs1

/-- The function `createPathFolderPairs`; `none` stands for a run-time panic. -/
def createPathFolderPairs (searchPattern : Str) : Option (List PathFilePair) :=
  match sliceTo searchPattern ((searchPattern.length : Int) - 1) with
  | none => none
  | some sp1 =>
    let sp2 := removeChar ')' (removeChar '(' sp1)
    let index := strIndex '/' sp2
    match sliceFrom sp2 (index + 1) with
    | none => none
    | some sp3 =>
      let index1 := strLastIndex '/' sp3
      let split : Option (Str × Str) :=
        if index1 ≠ -1 then
          match sliceFrom sp3 (index1 + 1), sliceTo sp3 index1 with
          | some lastSlashPath, some path => some (lastSlashPath, path)
          | _, _ => none
        else some (sp3, ".".toList)
      match split with
      | none => none
      | some (lastSlashPath, path) =>
        some (folderLoop path lastSlashPath 0 lastSlashPath [⟨path, lastSlashPath⟩])

/-- The function `BuildAqlFolderSearchQuery`; `none` stands for a run-time panic,
the returned error is always `nil`. -/
def BuildAqlFolderSearchQuery (searchPattern : Str) (aqlReturnFields : List Str) :
    Option Str :=
  match createPathFolderPairs searchPattern with
  | none => none
  | some pairs =>
    let index := strIndex '/' searchPattern
    match sliceTo searchPattern index with
    | none => none
    | some repo =>
      let size := pairs.length
      let json := "\x7b\"repo\": \"".toList ++ repo ++ "\",\"$or\": [".toList
      let json1 := clausesLoop "folder".toList size 0 pairs json
      let json2 := json1 ++ "]\x7d".toList
      some ("items.find(".toList ++ json2 ++ ").include(".toList ++
        buildAqlReturnFieldsString aqlReturnFields ++ ")".toList)

/-- Modelled from the spec: the key/value splitter `SplitProp`, whose source is
not at hand.  The spec says `split(entry) -> (key, value)`, failing on entries
missing the delimiter; the entry is split at its first `=`. -/
def SplitProp (prop : Str) : Str × Str × Option Str :=
  let index := strIndex '=' prop
  if index < 0 then ([], [], some ("Invalid property: ".toList ++ prop))
  else (prop.take index.toNat, prop.drop (index.toNat + 1), none)


/-! ## The source: `specUtils.go` -/

set_option linter.dupNamespace false

/-- Go slice expression `s[lo:hi]`; `none` when out of range. -/
def sliceRange (s : Str) (lo hi : Int) : Option Str :=
  if 0 ≤ lo ∧ lo ≤ hi ∧ hi ≤ s.length then some ((s.take hi.toNat).drop lo.toNat) else none

/-- The type `SpecType`, a Go string. -/
abbrev SpecType := Str

/-- The constant `WILDCARD`. -/
def WILDCARD : SpecType := "wildcard".toList

/-- The constant `SIMPLE`. -/
def SIMPLE : SpecType := "simple".toList

/-- The constant `AQL`. -/
def AQL : SpecType := "aql".toList

/-- The struct `Aql`. -/
structure Aql where
  ItemsFind : Str
  deriving DecidableEq, Repr

/-- The struct `Files`. -/
structure Files where
  Pattern : Str
  Target : Str
  Props : Str
  Recursive : Str
  Flat : Str
  Regexp : Str
  Aql : Aql
  deriving DecidableEq, Repr

/-- The value `new(Files)`: every field is the empty string. -/
def Files.zero : Files := ⟨[], [], [], [], [], [], ⟨[]⟩⟩

/-- The struct `SpecFiles`. -/
structure SpecFiles where
  Files : List Files
  deriving DecidableEq, Repr

/-- The method `SpecFiles.Get`; `none` stands for a run-time panic (a negative
index passes the test `index < len(spec.Files)` and is out of range). -/
def SpecFiles.Get (spec : SpecFiles) (index : Int) : Option Aql.Files :=
  if index < spec.Files.length then
    (if 0 ≤ index then spec.Files[index.toNat]? else none)
  else some Files.zero

/-- Modelled from the spec: the helper `cliutils.StripChars`, whose source is not
at hand; it removes from the string every character of the given set. -/
def StripChars (str chr : Str) : Str :=
  str.filter (fun c => !chr.contains c)

/-- The method `Aql.UnmarshalJSON`: the new value of `aql.ItemsFind`; `none`
stands for a run-time panic.  The returned error is always `nil`.  The indices
are byte indices, the string being the list of its bytes; `first` is found in the
text after the first `{` and used on the whole text, as in the code. -/
def Aql.UnmarshalJSON (value : Str) : Option Str :=
  let str := value
  match sliceFrom str (strIndex '\x7b' str + 1) with
  | none => none
  | some sub =>
    let first := strIndex '\x7b' sub
    let last := strLastIndex '\x7d' str
    match sliceRange str first last with
    | none => none
    | some body => some (StripChars body "\n\t ".toList)

/-- The method `Files.GetSpecType`.  The function `IsWildcardPattern` is not part
of the sources at hand and is a parameter.  The `switch` leaves the zero value
`""` when no case applies. -/
def Files.GetSpecType (IsWildcardPattern : Str → Bool) (files : Files) : SpecType :=
  if files.Pattern ≠ [] ∧ IsWildcardPattern files.Pattern = true then WILDCARD
  else if files.Pattern ≠ [] then SIMPLE
  else if files.Aql.ItemsFind ≠ [] then AQL
  else []

/-! ## Specification-side definitions -/

/-- The continuation `k` holds of some suffix of the string: what `*` followed by
`k` accepts. -/
def starRun (k : Str → Bool) : Str → Bool
  | [] => k []
  | x :: s1 => k (x :: s1) || starRun k s1

/-- Glob matching against a whole string: `*` matches any possibly empty run of
characters (`/` included), every other character matches itself. -/
def globMatch : Str → Str → Bool
  | [], s => s.isEmpty
  | c :: g, s =>
    if c = '*' then starRun (globMatch g) s
    else
      match s with
      | [] => false
      | x :: s1 => x == c && globMatch g s1

/-- Some pair of the list matches the directory `d` and the file name `f`. -/
def pairsMatch (pairs : List PathFilePair) (d f : Str) : Bool :=
  pairs.any (fun pr => globMatch pr.path d && globMatch pr.file f)

/-- The cuts of a glob at its wildcards: for every position `k` holding `*`, the
pair of the text up to and including that `*` and the text from that `*` on. -/
def starCuts : Str → List (Str × Str)
  | [] => []
  | c :: cs =>
    (if c = '*' then [([c], c :: cs)] else []) ++
      (starCuts cs).map (fun ab => (c :: ab.1, ab.2))

/-- The value of the variable `path` of `createPathFilePairs` after one more pass
through `if path != "" { path += "/" }`. -/
def bumpPath (path : Str) : Str :=
  if path ≠ [] then path ++ ['/'] else path

/-- The candidate pairs appended by the loops of `createPathFilePairs`, given the
cuts of the name still to come and the text `before` of the name already passed:
the variable `path` receives one more `/` before every pair. -/
def emitPairs : Str → Str → List (Str × Str) → List PathFilePair
  | _, _, [] => []
  | path, before, ab :: rest =>
    ⟨bumpPath path ++ (before ++ ab.1), ab.2⟩ :: emitPairs (bumpPath path) before rest


/-- The sections of a name, each preceded by the `*` that separates it from the
section before. -/
def joinTail : List Str → Str
  | [] => []
  | s :: r => '*' :: s ++ joinTail r

/-- The text of a name that precedes a section, given the sections before it. -/
def lead : List Str → Str
  | [] => []
  | p :: ps => p ++ joinTail ps ++ ['*']

/-- The path matcher of a clause. -/
def pathMatcher (path : Str) : Str :=
  "\"path\": \x7b\"$match\": \"".toList ++ path ++ "\"\x7d".toList

/-- The name matcher of a clause. -/
def nameMatcher (name : Str) : Str :=
  "\"name\": \x7b\"$match\": \"".toList ++ name ++ "\"\x7d".toList

/-- The type matcher of a clause, with its leading comma. -/
def typeMatcher (itemType : Str) : Str :=
  ",\"type\": \x7b\"$eq\": \"".toList ++ itemType ++ "\"\x7d".toList

/-- The root exclusion of a clause, with its trailing comma. -/
def rootExclusion : Str :=
  "\"path\": \x7b\"$ne\": \".\"\x7d,".toList

/-- The indices of a string that hold `*`, in increasing order. -/
def starIndices (s : Str) : List Nat :=
  (List.range s.length).filter (fun k => s[k]? == some '*')

/-- The bytes of a text in UTF-8, each byte written as the character with the
same code: how a Go string that is not plain ASCII is represented. -/
def goBytes (s : String) : Str :=
  s.toUTF8.data.toList.map (fun b => Char.ofNat b.toNat)

/-! ## Lemmas on the string functions -/

theorem strLastIndex_neg_iff (c : Char) (s : Str) : strLastIndex c s < 0 ↔ c ∉ s := by
  induction s with
  | nil => simp [strLastIndex]
  | cons x xs ih =>
    unfold strLastIndex
    by_cases h : strLastIndex c xs < 0
    · have hc : c ∉ xs := ih.mp h
      by_cases hx : x = c
      · subst hx; simp [h]
      · have hx1 : ¬ c = x := fun e => hx e.symm
        simp [h, hx, hc, hx1]
    · have hc : c ∈ xs := by
        by_contra hn
        exact h (ih.mpr hn)
      simp only [h, if_false]
      constructor
      · intro h2; omega
      · intro h2; exact absurd (List.mem_cons_of_mem _ hc) h2

theorem strLastIndex_append (c : Char) (a b : Str) (hb : c ∉ b) :
    strLastIndex c (a ++ c :: b) = a.length := by
  induction a with
  | nil =>
    have h := (strLastIndex_neg_iff c b).mpr hb
    simp [strLastIndex, h]
  | cons x xs ih =>
    have h0 : ¬ ((xs.length : Int) < 0) := by omega
    rw [List.cons_append, strLastIndex, ih, if_neg h0]
    simp

theorem strIndex_neg_iff (c : Char) (s : Str) : strIndex c s < 0 ↔ c ∉ s := by
  induction s with
  | nil => simp [strIndex]
  | cons x xs ih =>
    unfold strIndex
    by_cases hx : x = c
    · subst hx; simp
    · have hx1 : ¬ c = x := fun e => hx e.symm
      by_cases h : strIndex c xs < 0
      · have hc : c ∉ xs := ih.mp h
        simp [hx, h, hc, hx1]
      · have hc : c ∈ xs := by
          by_contra hn
          exact h (ih.mpr hn)
        simp only [hx, h, if_false]
        constructor
        · intro h2; omega
        · intro h2; exact absurd (List.mem_cons_of_mem _ hc) h2

theorem strIndex_append (c : Char) (a b : Str) (ha : c ∉ a) :
    strIndex c (a ++ c :: b) = a.length := by
  induction a with
  | nil => simp [strIndex]
  | cons x xs ih =>
    have hx : ¬ x = c := fun e => ha (by simp [e])
    have hxs : c ∉ xs := fun e => ha (List.mem_cons_of_mem _ e)
    have h0 : ¬ ((xs.length : Int) < 0) := by omega
    rw [List.cons_append, strIndex, ih hxs, if_neg hx, if_neg h0]
    simp

theorem exists_last_split (c : Char) (s : Str) (h : c ∈ s) :
    ∃ a b, s = a ++ c :: b ∧ c ∉ b := by
  induction s with
  | nil => simp at h
  | cons x xs ih =>
    by_cases hc : c ∈ xs
    · obtain ⟨a, b, hab, hb⟩ := ih hc
      exact ⟨x :: a, b, by simp [hab], hb⟩
    · have hx : c = x := by
        rcases List.mem_cons.mp h with h1 | h1
        · exact h1
        · exact absurd h1 hc
      exact ⟨[], xs, by simp [hx], hc⟩

theorem exists_first_split (c : Char) (s : Str) (h : c ∈ s) :
    ∃ a b, s = a ++ c :: b ∧ c ∉ a := by
  induction s with
  | nil => simp at h
  | cons x xs ih =>
    by_cases hx : c = x
    · exact ⟨[], xs, by simp [hx], by simp⟩
    · have hc : c ∈ xs := by
        rcases List.mem_cons.mp h with h1 | h1
        · exact absurd h1 hx
        · exact h1
      obtain ⟨a, b, hab, ha⟩ := ih hc
      refine ⟨x :: a, b, by simp [hab], ?_⟩
      intro hm
      rcases List.mem_cons.mp hm with h1 | h1
      · exact hx h1
      · exact ha h1

theorem sliceTo_append (a b : Str) : sliceTo (a ++ b) (a.length : Int) = some a := by
  simp [sliceTo]

theorem sliceFrom_append (a b : Str) (c : Char) :
    sliceFrom (a ++ c :: b) ((a.length : Int) + 1) = some b := by
  have h1 : ((a.length : Int) + 1).toNat = a.length + 1 := by omega
  have h2 : (0 : Int) ≤ (a.length : Int) + 1 := by omega
  simp only [sliceFrom, h1, h2, List.length_append, List.length_cons, Nat.cast_add, Nat.cast_one,
    true_and]
  have h3 : (a.length : Int) + 1 ≤ (a.length : Int) + ((b.length : Int) + 1) := by omega
  rw [if_pos h3]
  congr 1
  rw [List.drop_append_eq_append_drop]
  simp

theorem strSplit_not_mem (c : Char) (s : Str) (h : c ∉ s) : strSplit c s = [s] := by
  induction s with
  | nil => rfl
  | cons x xs ih =>
    have hx : ¬ x = c := fun e => h (by simp [e])
    have hxs : c ∉ xs := fun e => h (List.mem_cons_of_mem _ e)
    simp [strSplit, hx, ih hxs]

theorem strSplit_append (c : Char) (a b : Str) (ha : c ∉ a) :
    strSplit c (a ++ c :: b) = a :: strSplit c b := by
  induction a with
  | nil => simp [strSplit]
  | cons x xs ih =>
    have hx : ¬ x = c := fun e => ha (by simp [e])
    have hxs : c ∉ xs := fun e => ha (List.mem_cons_of_mem _ e)
    simp [strSplit, hx, ih hxs]

theorem strSplit_ne_nil (c : Char) (s : Str) : strSplit c s ≠ [] := by
  cases s with
  | nil => simp [strSplit]
  | cons x xs =>
    unfold strSplit
    split
    · simp
    · split <;> simp

/-! ## The loops of `createPathFilePairs` -/

theorem joinTail_append (a b : List Str) : joinTail (a ++ b) = joinTail a ++ joinTail b := by
  induction a with
  | nil => rfl
  | cons x xs ih => simp [joinTail, ih]

theorem lead_snoc (pre : List Str) (s : Str) : lead (pre ++ [s]) = lead pre ++ s ++ ['*'] := by
  cases pre with
  | nil => simp [lead, joinTail]
  | cons p ps => simp [lead, joinTail_append, joinTail]

theorem joinSections_after (i : Nat) (opt : Str) :
    ∀ (rest : List Str) (j : Nat) (str : Str), i < j →
      joinSections i opt j rest str = str ++ joinTail rest := by
  intro rest
  induction rest with
  | nil => intro j str _; simp [joinSections, joinTail]
  | cons s r ih =>
    intro j str hj
    have h1 : j > 0 := by omega
    have h2 : ¬ j = i := by omega
    rw [joinSections]
    simp only [h1, h2, if_true, if_false]
    rw [ih (j + 1) _ (by omega)]
    simp [joinTail]

theorem joinSections_at (i : Nat) (opt : Str) (s : Str) (post : List Str) :
    ∀ (mid : List Str) (j : Nat) (str : Str), 0 < j → j + mid.length = i →
      joinSections i opt j (mid ++ s :: post) str
        = str ++ joinTail mid ++ '*' :: opt ++ joinTail post := by
  intro mid
  induction mid with
  | nil =>
    intro j str hj hi
    have h2 : j = i := by simpa using hi
    subst h2
    have h1 : j > 0 := hj
    rw [List.nil_append, joinSections]
    simp only [h1, if_true]
    rw [joinSections_after j opt post (j + 1) _ (by omega)]
    simp [joinTail]
  | cons m ms ih =>
    intro j str hj hi
    have h1 : j > 0 := hj
    have h2 : ¬ j = i := by simp at hi; omega
    rw [List.cons_append, joinSections]
    simp only [h1, h2, if_true, if_false]
    rw [ih (j + 1) _ (by omega) (by simp at hi; omega)]
    simp [joinTail]

theorem joinSections_zero (pre : List Str) (s opt : Str) (post : List Str) :
    joinSections pre.length opt 0 (pre ++ s :: post) []
      = lead pre ++ opt ++ joinTail post := by
  cases pre with
  | nil =>
    rw [List.nil_append, joinSections]
    simp only [List.length_nil, gt_iff_lt, lt_self_iff_false, if_false, if_true]
    rw [joinSections_after 0 opt post 1 _ (by omega)]
    simp [lead]
  | cons p ps =>
    rw [List.cons_append, joinSections]
    have h2 : ¬ (0 = (p :: ps).length) := by simp
    simp only [gt_iff_lt, lt_self_iff_false, if_false, h2]
    rw [joinSections_at (p :: ps).length opt s post ps 1 _ (by omega) (by simp; omega)]
    simp [lead]

theorem starCuts_of_not_mem (s : Str) (h : '*' ∉ s) : starCuts s = [] := by
  induction s with
  | nil => rfl
  | cons x xs ih =>
    have hx : ¬ x = '*' := fun e => h (by simp [e])
    have hxs : '*' ∉ xs := fun e => h (List.mem_cons_of_mem _ e)
    simp [starCuts, hx, ih hxs]

theorem starCuts_literal_append (s rest : Str) (h : '*' ∉ s) :
    starCuts (s ++ rest) = (starCuts rest).map (fun ab => (s ++ ab.1, ab.2)) := by
  induction s with
  | nil => simp
  | cons x xs ih =>
    have hx : ¬ x = '*' := fun e => h (by simp [e])
    have hxs : '*' ∉ xs := fun e => h (List.mem_cons_of_mem _ e)
    simp [starCuts, hx, ih hxs, List.map_map, Function.comp_def]

theorem starCuts_section (s rest : Str) (h : '*' ∉ s) :
    starCuts (s ++ '*' :: rest)
      = (s ++ ['*'], '*' :: rest) ::
          (starCuts rest).map (fun ab => (s ++ '*' :: ab.1, ab.2)) := by
  rw [starCuts_literal_append s _ h]
  simp [starCuts, List.map_map, Function.comp_def]

theorem emitPairs_map (x : Str) :
    ∀ (cuts : List (Str × Str)) (path before : Str),
      emitPairs path before (cuts.map (fun ab => (x ++ ab.1, ab.2)))
        = emitPairs path (before ++ x) cuts := by
  intro cuts
  induction cuts with
  | nil => intro path before; simp [emitPairs]
  | cons c cs ih =>
    intro path before
    simp [emitPairs, ih]

theorem sectionsLoop_spec (secs : List Str) :
    ∀ (post pre : List Str) (s path : Str) (pairs : List PathFilePair),
      secs = pre ++ s :: post → '*' ∉ s → (∀ x ∈ post, '*' ∉ x) →
      '/' ∉ lead pre → '/' ∉ s → '/' ∉ joinTail post →
      ∃ path1, sectionsLoop secs pre.length (s :: post) (path, pairs)
        = some (path1, pairs ++ emitPairs path (lead pre) (starCuts (s ++ joinTail post))) := by
  intro post
  induction post with
  | nil =>
    intro pre s path pairs hsecs hs _ _ _ _
    refine ⟨path, ?_⟩
    have hlen : ¬ (pre.length + 1 < secs.length) := by simp [hsecs]
    simp [sectionsLoop, optionsLoop, hlen, joinTail, starCuts_of_not_mem s hs, emitPairs]
  | cons t ts ih =>
    intro pre s path pairs hsecs hs hpost hlead hsl htail
    have hlen : pre.length + 1 < secs.length := by simp [hsecs]
    have ht : '*' ∉ t := hpost t (by simp)
    have hts : ∀ x ∈ ts, '*' ∉ x := fun x hx => hpost x (List.mem_cons_of_mem _ hx)
    have htail1 : '/' ∉ t ∧ '/' ∉ joinTail ts :=
      ⟨fun h => htail (by simp [joinTail, h]), fun h => htail (by simp [joinTail, h])⟩
    have hA : '/' ∉ lead pre ++ s ++ ['*'] := by
      simp only [List.mem_append, List.mem_singleton, not_or]
      exact ⟨⟨hlead, hsl⟩, by decide⟩
    have hB : '/' ∉ '*' :: (t ++ joinTail ts) := by
      simp only [List.mem_cons, List.mem_append, not_or]
      exact ⟨by decide, htail1.1, htail1.2⟩
    have hjoin : joinSections pre.length (s ++ "*/".toList) 0 secs []
        = (lead pre ++ s ++ ['*']) ++ '/' :: ('*' :: (t ++ joinTail ts)) := by
      rw [hsecs, joinSections_zero]
      simp [joinTail]
    have hsplit : strSplit '/' (joinSections pre.length (s ++ "*/".toList) 0 secs [])
        = [lead pre ++ s ++ ['*'], '*' :: (t ++ joinTail ts)] := by
      rw [hjoin, strSplit_append _ _ _ hA, strSplit_not_mem _ _ hB]
    obtain ⟨path1, h1⟩ := ih (pre ++ [s]) t (bumpPath path)
      (pairs ++ [⟨bumpPath path ++ (lead pre ++ s ++ ['*']), '*' :: (t ++ joinTail ts)⟩])
      (by simp [hsecs]) ht hts (by rw [lead_snoc]; exact hA) htail1.1 htail1.2
    refine ⟨path1, ?_⟩
    have hlen1 : (pre ++ [s]).length = pre.length + 1 := by simp
    rw [hlen1] at h1
    rw [sectionsLoop]
    simp only [hlen, if_true, optionsLoop, hsplit]
    simp only [List.getElem?_cons_zero, List.getElem?_cons_succ]
    have hne : ¬ ('*' :: (t ++ joinTail ts) = []) := by simp
    simp only [hne, if_false]
    have hb : (if path ≠ [] then path ++ "/".toList else path) = bumpPath path := rfl
    rw [hb, h1]
    simp only [joinTail, List.cons_append]
    rw [starCuts_section s _ hs]
    have hm : (fun ab : Str × Str => (s ++ '*' :: ab.1, ab.2))
        = (fun ab : Str × Str => ((s ++ ['*']) ++ ab.1, ab.2)) := by
      funext ab; simp
    rw [hm, emitPairs, emitPairs_map, lead_snoc]
    simp

theorem strSplit_star (name : Str) :
    ∃ s0 r, strSplit '*' name = s0 :: r ∧ name = s0 ++ joinTail r ∧
      '*' ∉ s0 ∧ ∀ x ∈ r, '*' ∉ x := by
  induction name with
  | nil => exact ⟨[], [], rfl, rfl, by simp, by simp⟩
  | cons c cs ih =>
    obtain ⟨s0, r, h1, h2, h3, h4⟩ := ih
    by_cases hc : c = '*'
    · refine ⟨[], s0 :: r, by simp [strSplit, hc, h1], ?_, by simp, ?_⟩
      · simp only [joinTail, List.nil_append, hc]
        rw [List.cons_append, ← h2]
      · intro x hx
        rcases List.mem_cons.mp hx with h | h
        · rw [h]; exact h3
        · exact h4 x h
    · refine ⟨c :: s0, r, by simp [strSplit, hc, h1], ?_, ?_, h4⟩
      · rw [List.cons_append, ← h2]
      · intro hm
        rcases List.mem_cons.mp hm with h | h
        · exact hc h.symm
        · exact h3 h

theorem sectionsLoop_total (name path : Str) (pairs : List PathFilePair) (h : '/' ∉ name) :
    ∃ path1, sectionsLoop (strSplit '*' name) 0 (strSplit '*' name) (path, pairs)
      = some (path1, pairs ++ emitPairs path [] (starCuts name)) := by
  obtain ⟨s0, r, h1, h2, h3, h4⟩ := strSplit_star name
  have hs0 : '/' ∉ s0 := fun hm => h (by rw [h2]; simp [hm])
  have hr : '/' ∉ joinTail r := fun hm => h (by rw [h2]; simp [hm])
  obtain ⟨path1, hp⟩ := sectionsLoop_spec (strSplit '*' name) r [] s0 path pairs
    (by simp [h1]) h3 h4 (by simp [lead]) hs0 hr
  refine ⟨path1, ?_⟩
  rw [h1] at hp ⊢
  rw [h2]
  simpa [lead] using hp

theorem createPathFilePairs_noslash (p : Str) (hs : '/' ∉ p) (hp : p ≠ "*".toList) :
    createPathFilePairs p true
      = some (⟨".".toList, p⟩ :: emitPairs [] [] (starCuts p)) := by
  have hidx : strLastIndex '/' p < 0 := (strLastIndex_neg_iff _ _).mpr hs
  obtain ⟨path1, h1⟩ := sectionsLoop_total p [] [⟨".".toList, p⟩] hs
  simp only [createPathFilePairs, hp, hidx, if_true, if_false, Bool.not_true, h1]
  simp

theorem createPathFilePairs_slash (path name : Str) (hs : '/' ∉ name) :
    createPathFilePairs (path ++ '/' :: name) true
      = some (⟨path, name⟩ ::
          (if name = "*".toList then [⟨path ++ "/*".toList, "*".toList⟩]
           else emitPairs path [] (starCuts name))) := by
  have hidx : strLastIndex '/' (path ++ '/' :: name) = path.length :=
    strLastIndex_append _ _ _ hs
  have hneg : ¬ ((path.length : Int) < 0) := by omega
  have hp : ¬ (path ++ '/' :: name = "*".toList) := by
    intro e
    have : '/' ∈ "*".toList := by rw [← e]; simp
    revert this; decide
  obtain ⟨path1, h1⟩ := sectionsLoop_total name path [⟨path, name⟩] hs
  simp only [createPathFilePairs, hp, hidx, hneg, if_false, sliceTo_append, sliceFrom_append,
    Bool.not_true]
  by_cases hn : name = "*".toList
  · simp [hn]
  · simp only [hn, if_false, h1]
    simp

theorem createPathFilePairs_flat_noslash (p : Str) (hs : '/' ∉ p) :
    createPathFilePairs p false = some [⟨".".toList, p⟩] := by
  have hidx : strLastIndex '/' p < 0 := (strLastIndex_neg_iff _ _).mpr hs
  by_cases hp : p = "*".toList
  · subst hp; rfl
  · simp only [createPathFilePairs, hp, hidx, if_true, if_false]
    simp

theorem createPathFilePairs_flat_slash (path name : Str) (hs : '/' ∉ name) :
    createPathFilePairs (path ++ '/' :: name) false = some [⟨path, name⟩] := by
  have hidx : strLastIndex '/' (path ++ '/' :: name) = path.length :=
    strLastIndex_append _ _ _ hs
  have hneg : ¬ ((path.length : Int) < 0) := by omega
  have hp : ¬ (path ++ '/' :: name = "*".toList) := by
    intro e
    have : '/' ∈ "*".toList := by rw [← e]; simp
    revert this; decide
  simp only [createPathFilePairs, hp, hidx, hneg, if_false, sliceTo_append, sliceFrom_append]
  simp

/-! ## Glob matching -/

theorem starRun_iff (k : Str → Bool) (s : Str) :
    starRun k s = true ↔ ∃ s1 s2, s = s1 ++ s2 ∧ k s2 = true := by
  induction s with
  | nil =>
    simp only [starRun]
    constructor
    · intro h; exact ⟨[], [], rfl, h⟩
    · rintro ⟨s1, s2, h1, h2⟩
      have : s2 = [] := by
        have := congrArg List.length h1
        simp at this
        exact List.length_eq_zero.mp (by omega)
      rw [this] at h2; exact h2
  | cons x xs ih =>
    simp only [starRun, Bool.or_eq_true, ih]
    constructor
    · rintro (h | ⟨s1, s2, h1, h2⟩)
      · exact ⟨[], x :: xs, rfl, h⟩
      · exact ⟨x :: s1, s2, by simp [h1], h2⟩
    · rintro ⟨s1, s2, h1, h2⟩
      cases s1 with
      | nil => left; simp at h1; rw [h1]; exact h2
      | cons y ys =>
        right
        simp at h1
        exact ⟨ys, s2, h1.2, h2⟩

theorem globMatch_nil (s : Str) : globMatch [] s = true ↔ s = [] := by
  cases s <;> simp [globMatch]

theorem globMatch_star (g s : Str) :
    globMatch ('*' :: g) s = true ↔ ∃ s1 s2, s = s1 ++ s2 ∧ globMatch g s2 = true := by
  simp [globMatch, starRun_iff]

theorem globMatch_literal (c : Char) (g s : Str) (hc : c ≠ '*') :
    globMatch (c :: g) s = true ↔ ∃ s1, s = c :: s1 ∧ globMatch g s1 = true := by
  cases s with
  | nil => simp [globMatch, hc]
  | cons x xs =>
    simp only [globMatch, hc, if_false, Bool.and_eq_true, beq_iff_eq]
    constructor
    · rintro ⟨h1, h2⟩; exact ⟨xs, by rw [h1], h2⟩
    · rintro ⟨s1, h1, h2⟩
      simp at h1
      exact ⟨h1.1, by rw [h1.2]; exact h2⟩

theorem globMatch_append (g1 g2 : Str) :
    ∀ s, globMatch (g1 ++ g2) s = true ↔
      ∃ s1 s2, s = s1 ++ s2 ∧ globMatch g1 s1 = true ∧ globMatch g2 s2 = true := by
  induction g1 with
  | nil =>
    intro s
    constructor
    · intro h; exact ⟨[], s, rfl, by simp [globMatch], h⟩
    · rintro ⟨s1, s2, h1, h2, h3⟩
      have : s1 = [] := (globMatch_nil s1).mp h2
      subst this
      simpa [h1] using h3
  | cons c g ih =>
    intro s
    by_cases hc : c = '*'
    · subst hc
      rw [List.cons_append, globMatch_star]
      constructor
      · rintro ⟨a, b, h1, h2⟩
        obtain ⟨b1, b2, h3, h4, h5⟩ := (ih b).mp h2
        exact ⟨a ++ b1, b2, by simp [h1, h3], (globMatch_star g _).mpr ⟨a, b1, rfl, h4⟩, h5⟩
      · rintro ⟨s1, s2, h1, h2, h3⟩
        obtain ⟨a, b, h4, h5⟩ := (globMatch_star g s1).mp h2
        exact ⟨a, b ++ s2, by simp [h1, h4], (ih _).mpr ⟨b, s2, rfl, h5, h3⟩⟩
    · rw [List.cons_append, globMatch_literal c _ s hc]
      constructor
      · rintro ⟨t, h1, h2⟩
        obtain ⟨b1, b2, h3, h4, h5⟩ := (ih t).mp h2
        exact ⟨c :: b1, b2, by simp [h1, h3], (globMatch_literal c g _ hc).mpr ⟨b1, rfl, h4⟩, h5⟩
      · rintro ⟨s1, s2, h1, h2, h3⟩
        obtain ⟨t, h4, h5⟩ := (globMatch_literal c g s1 hc).mp h2
        exact ⟨t ++ s2, by simp [h1, h4], (ih _).mpr ⟨t, s2, rfl, h5, h3⟩⟩

theorem globMatch_cuts (g : Str) (hg : '/' ∉ g) :
    ∀ d f, globMatch g (d ++ '/' :: f) = true ↔
      ∃ ab ∈ starCuts g, globMatch ab.1 d = true ∧ globMatch ab.2 f = true := by
  induction g with
  | nil =>
    intro d f
    simp [starCuts, globMatch]
  | cons c g ih =>
    have hc1 : c ≠ '/' := fun e => hg (by simp [e])
    have hg1 : '/' ∉ g := fun e => hg (List.mem_cons_of_mem _ e)
    intro d f
    by_cases hc : c = '*'
    · subst hc
      rw [globMatch_star]
      simp only [starCuts, if_true, List.singleton_append, List.mem_cons, List.mem_map,
        exists_eq_or_imp, exists_exists_and_eq_and]
      constructor
      · rintro ⟨s1, s2, h1, h2⟩
        rcases List.append_eq_append_iff.mp h1 with ⟨a, _, h4⟩ | ⟨a, h3, h4⟩
        · cases a with
          | nil =>
            right
            rw [List.nil_append] at h4
            rw [← h4] at h2
            obtain ⟨ab, hab, h5, h6⟩ := (ih hg1 [] f).mp (by simpa using h2)
            exact ⟨ab, hab, (globMatch_star _ _).mpr ⟨d, [], by simp, h5⟩, h6⟩
          | cons y ys =>
            left
            simp only [List.cons_append, List.cons.injEq] at h4
            exact ⟨(globMatch_star _ _).mpr ⟨d, [], by simp, by simp [globMatch]⟩,
              (globMatch_star _ _).mpr ⟨ys, s2, h4.2, h2⟩⟩
        · right
          rw [h4] at h2
          obtain ⟨ab, hab, h5, h6⟩ := (ih hg1 a f).mp h2
          exact ⟨ab, hab, (globMatch_star _ _).mpr ⟨s1, a, h3, h5⟩, h6⟩
      · rintro (⟨_, h2⟩ | ⟨ab, hab, h5, h6⟩)
        · obtain ⟨s1, s2, h3, h4⟩ := (globMatch_star _ _).mp h2
          exact ⟨d ++ '/' :: s1, s2, by simp [h3], h4⟩
        · obtain ⟨s1, s2, h3, h4⟩ := (globMatch_star _ _).mp h5
          exact ⟨s1, s2 ++ '/' :: f, by simp [h3],
            (ih hg1 s2 f).mpr ⟨ab, hab, h4, h6⟩⟩
    · rw [globMatch_literal c g _ hc]
      simp only [starCuts, hc, if_false, List.nil_append, List.mem_map,
        exists_exists_and_eq_and]
      constructor
      · rintro ⟨s1, h1, h2⟩
        cases d with
        | nil =>
          simp only [List.nil_append, List.cons.injEq] at h1
          exact absurd h1.1.symm hc1
        | cons x xs =>
          simp only [List.cons_append, List.cons.injEq] at h1
          rw [← h1.2] at h2
          obtain ⟨ab, hab, h5, h6⟩ := (ih hg1 xs f).mp h2
          exact ⟨ab, hab, (globMatch_literal c _ _ hc).mpr ⟨xs, by rw [h1.1], h5⟩, h6⟩
      · rintro ⟨ab, hab, h5, h6⟩
        obtain ⟨s1, h3, h4⟩ := (globMatch_literal c _ _ hc).mp h5
        exact ⟨s1 ++ '/' :: f, by simp [h3], (ih hg1 s1 f).mpr ⟨ab, hab, h4, h6⟩⟩

theorem starCuts_length (s : Str) : (starCuts s).length = s.count '*' := by
  induction s with
  | nil => rfl
  | cons c cs ih =>
    by_cases hc : c = '*'
    · subst hc; simp [starCuts, ih]
    · have hc1 : ¬ (c == '*') = true := by simpa using hc
      simp [starCuts, hc, ih, List.count_cons, hc1]

theorem globMatch_dot (d : Str) : globMatch ".".toList d = true ↔ d = ".".toList := by
  have h : ".".toList = ['.'] := rfl
  rw [h, globMatch_literal '.' [] d (by decide)]
  constructor
  · rintro ⟨s1, h1, h2⟩
    rw [(globMatch_nil s1).mp h2] at h1
    exact h1
  · intro h1
    exact ⟨[], h1, by simp [globMatch]⟩

theorem pairsMatch_iff (pairs : List PathFilePair) (d f : Str) :
    pairsMatch pairs d f = true ↔
      ∃ pr ∈ pairs, globMatch pr.path d = true ∧ globMatch pr.file f = true := by
  simp [pairsMatch, List.any_eq_true]

theorem emitPairs_nil_path :
    ∀ (cuts : List (Str × Str)),
      emitPairs [] [] cuts = cuts.map (fun ab => (⟨ab.1, ab.2⟩ : PathFilePair)) := by
  intro cuts
  induction cuts with
  | nil => rfl
  | cons c cs ih =>
    have hb : bumpPath [] = [] := rfl
    simp [emitPairs, hb, ih]

/-- Without `/` in the pattern, the pairs after the direct one are the cuts. -/
theorem globMatch_noslash_pairs (p d f : Str) (hs : '/' ∉ p) (hp : p ≠ "*".toList)
    (hd : d ≠ ".".toList) :
    globMatch p (d ++ '/' :: f) = true ↔
      ∃ pairs, createPathFilePairs p true = some pairs ∧ pairsMatch pairs d f = true := by
  rw [createPathFilePairs_noslash p hs hp, globMatch_cuts p hs d f]
  simp only [Option.some.injEq, exists_eq_left', pairsMatch_iff, emitPairs_nil_path,
    List.mem_cons, List.mem_map, exists_eq_or_imp, exists_exists_and_eq_and]
  have hdot : ¬ (globMatch ['.'] d = true) := fun h => hd ((globMatch_dot d).mp h)
  simp [hdot]

theorem globMatch_slash_split (path name d f : Str) (hs : '/' ∉ name) (hf : '/' ∉ f) :
    globMatch (path ++ '/' :: name) (d ++ '/' :: f) = true ↔
      (globMatch path d = true ∧ globMatch name f = true) ∨
      ∃ ab ∈ starCuts name,
        globMatch (path ++ '/' :: ab.1) d = true ∧ globMatch ab.2 f = true := by
  have hsl : '/' ≠ '*' := by decide
  constructor
  · intro h
    obtain ⟨s1, s2, h1, h2, h3⟩ := (globMatch_append path ('/' :: name) _).mp h
    obtain ⟨s3, h4, h5⟩ := (globMatch_literal '/' name s2 hsl).mp h3
    subst h4
    rcases List.append_eq_append_iff.mp h1 with ⟨a, h6, h7⟩ | ⟨a, h6, h7⟩
    · cases a with
      | nil =>
        simp only [List.nil_append, List.cons.injEq, true_and] at h7
        simp only [List.append_nil] at h6
        left; rw [← h6, h7]; exact ⟨h2, h5⟩
      | cons y ys =>
        simp only [List.cons_append, List.cons.injEq] at h7
        exact absurd (by rw [h7.2]; simp) hf
    · cases a with
      | nil =>
        simp only [List.nil_append, List.cons.injEq, true_and] at h7
        simp only [List.append_nil] at h6
        left; rw [h6, ← h7]; exact ⟨h2, h5⟩
      | cons y ys =>
        simp only [List.cons_append, List.cons.injEq] at h7
        right
        rw [h7.2] at h5
        obtain ⟨ab, hab, h8, h9⟩ := (globMatch_cuts name hs ys f).mp h5
        refine ⟨ab, hab, ?_, h9⟩
        rw [h6, ← h7.1]
        exact (globMatch_append path _ _).mpr
          ⟨s1, '/' :: ys, rfl, h2, (globMatch_literal '/' _ _ hsl).mpr ⟨ys, rfl, h8⟩⟩
  · rintro (⟨h1, h2⟩ | ⟨ab, hab, h1, h2⟩)
    · exact (globMatch_append path _ _).mpr
        ⟨d, '/' :: f, rfl, h1, (globMatch_literal '/' _ _ hsl).mpr ⟨f, rfl, h2⟩⟩
    · obtain ⟨s1, s2, h3, h4, h5⟩ := (globMatch_append path _ _).mp h1
      obtain ⟨s3, h6, h7⟩ := (globMatch_literal '/' _ _ hsl).mp h5
      subst h6
      have h8 : globMatch name (s3 ++ '/' :: f) = true :=
        (globMatch_cuts name hs s3 f).mpr ⟨ab, hab, h7, h2⟩
      rw [h3]
      exact (globMatch_append path _ _).mpr
        ⟨s1, '/' :: (s3 ++ '/' :: f), by simp, h4,
          (globMatch_literal '/' _ _ hsl).mpr ⟨_, rfl, h8⟩⟩

/-- With a non-empty outer path and at most one `*` in the name, the pairs after
the direct one are the cuts behind the outer path and one `/`. -/
theorem createPathFilePairs_one_star (path name : Str) (hs : '/' ∉ name)
    (hpath : path ≠ []) (hc : name.count '*' ≤ 1) :
    createPathFilePairs (path ++ '/' :: name) true
      = some (⟨path, name⟩ ::
          (starCuts name).map (fun ab => (⟨path ++ '/' :: ab.1, ab.2⟩ : PathFilePair))) := by
  rw [createPathFilePairs_slash path name hs]
  have hb : bumpPath path = path ++ ['/'] := by simp [bumpPath, hpath]
  by_cases hn : name = "*".toList
  · subst hn
    simp only [if_true]
    rfl
  · simp only [hn, if_false]
    have hl : (starCuts name).length ≤ 1 := by rw [starCuts_length]; exact hc
    match hcs : starCuts name, hl with
    | [], _ => simp [emitPairs]
    | [ab], _ => simp [emitPairs, hb]

theorem globMatch_one_star_pairs (path name d f : Str) (hs : '/' ∉ name) (hf : '/' ∉ f)
    (hpath : path ≠ []) (hc : name.count '*' ≤ 1) :
    globMatch (path ++ '/' :: name) (d ++ '/' :: f) = true ↔
      ∃ pairs, createPathFilePairs (path ++ '/' :: name) true = some pairs ∧
        pairsMatch pairs d f = true := by
  rw [createPathFilePairs_one_star path name hs hpath hc,
    globMatch_slash_split path name d f hs hf]
  simp only [Option.some.injEq, exists_eq_left', pairsMatch_iff,
    List.mem_cons, List.mem_map, exists_eq_or_imp, exists_exists_and_eq_and]

/-! ## The query assembler -/

theorem mem_removeChar (c x : Char) (s : Str) (h : c ≠ x) :
    c ∈ removeChar x s ↔ c ∈ s := by
  simp [removeChar, h]

theorem prepareSearchPattern_slash (p : Str) : '/' ∈ prepareSearchPattern p := by
  unfold prepareSearchPattern
  simp only
  rw [mem_removeChar _ _ _ (by decide), mem_removeChar _ _ _ (by decide)]
  have h1 : '/' ∈ (if strIndex '/' p < 0 then p ++ "/".toList else p) := by
    by_cases h : strIndex '/' p < 0
    · simp [h]
    · simp only [h, if_false]
      by_contra hn
      exact h ((strIndex_neg_iff _ _).mpr hn)
  generalize (if strIndex '/' p < 0 then p ++ "/".toList else p) = p1 at h1
  by_cases h2 : hasSuffixChar '/' p1 = true
  · simp only [h2, if_true]
    exact List.mem_append_left _ h1
  · simp only [h2]
    exact h1

theorem createPathFilePairs_total (p : Str) (recursive : Bool) :
    ∃ pairs, createPathFilePairs p recursive = some pairs ∧ pairs ≠ [] := by
  by_cases hs : '/' ∈ p
  · obtain ⟨a, b, hab, hb⟩ := exists_last_split '/' p hs
    subst hab
    cases recursive with
    | false => exact ⟨_, createPathFilePairs_flat_slash a b hb, by simp⟩
    | true => exact ⟨_, createPathFilePairs_slash a b hb, by simp⟩
  · cases recursive with
    | false => exact ⟨_, createPathFilePairs_flat_noslash p hs, by simp⟩
    | true =>
      by_cases hp : p = "*".toList
      · subst hp; exact ⟨_, rfl, by simp⟩
      · exact ⟨_, createPathFilePairs_noslash p hs hp, by simp⟩

theorem intercalate_cons_cons (sep x y : Str) (r : List Str) :
    sep.intercalate (x :: y :: r) = x ++ sep ++ sep.intercalate (y :: r) := by
  simp [List.intercalate, List.intersperse]

theorem intercalate_single (sep x : Str) : sep.intercalate [x] = x := by
  simp [List.intercalate, List.intersperse]

theorem clausesLoop_eq (itemType : Str) (size : Nat) :
    ∀ (pairs : List PathFilePair) (i : Nat) (json : Str), i + pairs.length = size →
      clausesLoop itemType size i pairs json
        = json ++ ",".toList.intercalate (pairs.map (fun pr =>
            "\x7b".toList ++ buildInnerQuery pr.path pr.file itemType ++ "\x7d".toList)) := by
  intro pairs
  induction pairs with
  | nil => intro i json _; simp [clausesLoop, List.intercalate]
  | cons pr rest ih =>
    intro i json hsz
    cases rest with
    | nil =>
      have hlt : ¬ (i + 1 < size) := by simp at hsz; omega
      simp only [clausesLoop, hlt, if_false, List.map_cons, List.map_nil, intercalate_single]
      simp
    | cons pr2 rest2 =>
      have hlt : i + 1 < size := by simp at hsz; omega
      rw [clausesLoop]
      simp only [hlt, if_true]
      rw [ih (i + 1) _ (by simp at hsz ⊢; omega)]
      simp only [List.map_cons, intercalate_cons_cons]
      simp

theorem returnFieldsLoop_eq (len : Nat) :
    ∀ (fields : List Str) (i : Nat) (acc : Str), i + fields.length = len →
      returnFieldsLoop len i fields acc = acc ++ ",".toList.intercalate fields := by
  intro fields
  induction fields with
  | nil => intro i acc _; simp [returnFieldsLoop, List.intercalate]
  | cons v rest ih =>
    intro i acc hsz
    cases rest with
    | nil =>
      have hlt : ¬ ((i : Int) < (len : Int) - 1) := by simp at hsz; omega
      simp only [returnFieldsLoop, hlt, if_false, intercalate_single]
    | cons v2 rest2 =>
      have hlt : (i : Int) < (len : Int) - 1 := by simp at hsz; omega
      rw [returnFieldsLoop]
      simp only [hlt, if_true]
      rw [ih (i + 1) _ (by simp at hsz ⊢; omega)]
      simp only [intercalate_cons_cons]
      simp

theorem buildAqlReturnFieldsString_eq (fields : List Str) :
    buildAqlReturnFieldsString fields = ",".toList.intercalate fields := by
  unfold buildAqlReturnFieldsString
  rw [returnFieldsLoop_eq fields.length fields 0 [] (by simp)]
  simp

/-- The concatenation of the clauses of the entries, in order. -/
theorem propsLoop_accepted {ε : Type} (splitProp : Str → Str × Str × Option ε) :
    ∀ (entries : List Str) (query : Str),
      (∀ e ∈ entries, (splitProp e).2.2 = none) →
      propsLoop splitProp entries query
        = (query ++ (entries.map (fun e =>
            propClause (splitProp e).1 (splitProp e).2.1)).flatten, none) := by
  intro entries
  induction entries with
  | nil => intro query _; simp [propsLoop]
  | cons e rest ih =>
    intro query h
    have he : (splitProp e).2.2 = none := h e (by simp)
    have hrest : ∀ x ∈ rest, (splitProp x).2.2 = none :=
      fun x hx => h x (List.mem_cons_of_mem _ hx)
    rw [propsLoop]
    rcases hsp : splitProp e with ⟨key, value, err⟩
    rw [hsp] at he
    simp only at he
    subst he
    simp only
    rw [ih _ hrest]
    simp [hsp]

theorem propsLoop_error {ε : Type} (splitProp : Str → Str × Str × Option ε) :
    ∀ (entries : List Str) (query : Str),
      (propsLoop splitProp entries query).2 ≠ none ↔
        ∃ e ∈ entries, (splitProp e).2.2 ≠ none := by
  intro entries
  induction entries with
  | nil => intro query; simp [propsLoop]
  | cons e rest ih =>
    intro query
    rw [propsLoop]
    rcases hsp : splitProp e with ⟨key, value, err⟩
    cases err with
    | none =>
      simp only [ih, List.mem_cons, exists_eq_or_imp, hsp, ne_eq, not_true_eq_false, false_or]
    | some x =>
      simp [hsp]

theorem propsLoop_error_empty {ε : Type} (splitProp : Str → Str × Str × Option ε) :
    ∀ (entries : List Str) (query : Str),
      (propsLoop splitProp entries query).2 ≠ none →
        (propsLoop splitProp entries query).1 = [] := by
  intro entries
  induction entries with
  | nil => intro query h; simp [propsLoop] at h
  | cons e rest ih =>
    intro query
    rw [propsLoop]
    rcases hsp : splitProp e with ⟨key, value, err⟩
    cases err with
    | none => exact ih _
    | some x => simp

/-- What `BuildAqlSearchQuery` returns, given the split of the normalized pattern
and the pairs. -/
theorem BuildAqlSearchQuery_eq {ε : Type} (splitProp : Str → Str × Str × Option ε)
    (searchPattern : Str) (recursive : Bool) (props : Str) (fields : List Str)
    (repo rest : Str) (pairs : List PathFilePair)
    (hprep : prepareSearchPattern searchPattern = repo ++ '/' :: rest) (hrepo : '/' ∉ repo)
    (hpairs : createPathFilePairs rest recursive = some pairs) (hne : pairs ≠ []) :
    BuildAqlSearchQuery splitProp searchPattern recursive props fields =
      match buildPropsQuery splitProp props with
      | (_, some err) => some ([], some err)
      | (propsQuery, none) =>
        some ("items.find(\x7b\"repo\": \"".toList ++ repo ++ "\",".toList ++ propsQuery ++
          "\"$or\": [".toList ++
          ",".toList.intercalate (pairs.map (fun pr =>
            "\x7b".toList ++ buildInnerQuery pr.path pr.file [] ++ "\x7d".toList)) ++
          "]\x7d).include(".toList ++ ",".toList.intercalate fields ++ ")".toList, none) := by
  have hidx : strIndex '/' (repo ++ '/' :: rest) = repo.length := strIndex_append _ _ _ hrepo
  have hsz : ¬ (pairs.length = 0) := by
    intro h; exact hne (List.length_eq_zero.mp h)
  unfold BuildAqlSearchQuery
  simp only [hprep, hidx, sliceTo_append, sliceFrom_append, hpairs]
  rcases hq : buildPropsQuery splitProp props with ⟨q, err⟩
  cases err with
  | some x => rfl
  | none =>
    simp only [hsz, if_false]
    rw [clausesLoop_eq [] pairs.length pairs 0 _ (by simp), buildAqlReturnFieldsString_eq]
    simp

theorem removeChar_append (c : Char) (a b : Str) :
    removeChar c (a ++ b) = removeChar c a ++ removeChar c b := by
  simp [removeChar]

theorem not_mem_removeChar (c x : Char) (s : Str) (h : c ∉ s) : c ∉ removeChar x s := by
  intro hm
  simp only [removeChar, List.mem_filter] at hm
  exact h hm.1

/-! ## Pattern normalization -/

theorem hasSuffixChar_snoc (c x : Char) (s : Str) :
    hasSuffixChar c (s ++ [x]) = (x == c) := by
  simp [hasSuffixChar]

theorem prepareSearchPattern_bare (p : Str) (hp : '/' ∉ p) :
    prepareSearchPattern p = removeChar ')' (removeChar '(' (p ++ "/*".toList)) := by
  have hidx : strIndex '/' p < 0 := (strIndex_neg_iff _ _).mpr hp
  have hsuf : hasSuffixChar '/' (p ++ "/".toList) = true := hasSuffixChar_snoc '/' '/' p
  unfold prepareSearchPattern
  simp only [hidx, if_true, hsuf]
  simp

theorem prepareSearchPattern_bare_star (p : Str) :
    prepareSearchPattern (p ++ "/*".toList)
      = removeChar ')' (removeChar '(' (p ++ "/*".toList)) := by
  have hmem : '/' ∈ p ++ "/*".toList := by simp
  have hidx : ¬ (strIndex '/' (p ++ "/*".toList) < 0) := by
    intro h; exact ((strIndex_neg_iff _ _).mp h) hmem
  have hsuf : hasSuffixChar '/' (p ++ "/*".toList) = false := by
    have h : p ++ "/*".toList = (p ++ ['/']) ++ ['*'] := by simp
    rw [h, hasSuffixChar_snoc]; decide
  unfold prepareSearchPattern
  simp only [hidx, if_false, hsuf]
  simp

theorem removeChar_eq_self (c : Char) (s : Str) (h : c ∉ s) : removeChar c s = s := by
  unfold removeChar
  rw [List.filter_eq_self]
  intro a ha
  have : a ≠ c := fun e => h (e ▸ ha)
  simpa using this

theorem not_mem_removeChar_self (c : Char) (s : Str) : c ∉ removeChar c s := by
  simp [removeChar]

theorem prepareSearchPattern_no_paren (p : Str) :
    '(' ∉ prepareSearchPattern p ∧ ')' ∉ prepareSearchPattern p := by
  unfold prepareSearchPattern
  exact ⟨not_mem_removeChar _ _ _ (not_mem_removeChar_self _ _), not_mem_removeChar_self _ _⟩

theorem exists_snoc_of_hasSuffixChar (c : Char) (s : Str) (h : hasSuffixChar c s = true) :
    ∃ q, s = q ++ [c] := by
  unfold hasSuffixChar at h
  have h1 : s.getLast? = some c := by simpa using h
  rcases List.eq_nil_or_concat s with hn | ⟨q, x, hq⟩
  · subst hn; simp at h1
  · subst hq
    rw [List.concat_eq_append] at h1 ⊢
    have h2 : x = c := by simpa using h1
    exact ⟨q, by rw [h2]⟩

/-- The normalized pattern of a pattern with `/`. -/
theorem prepareSearchPattern_of_slash (p : Str) (hp : '/' ∈ p) :
    prepareSearchPattern p
      = removeChar ')' (removeChar '('
          (if hasSuffixChar '/' p = true then p ++ "*".toList else p)) := by
  have hidx : ¬ (strIndex '/' p < 0) := fun h => ((strIndex_neg_iff _ _).mp h) hp
  unfold prepareSearchPattern
  simp only [hidx, if_false]

theorem prepareSearchPattern_suffix (p : Str)
    (h : hasSuffixChar '/' p = true ∨
      hasSuffixChar '/' (removeChar ')' (removeChar '(' p)) = false) :
    hasSuffixChar '/' (prepareSearchPattern p) = false := by
  have hstar : removeChar ')' (removeChar '(' "*".toList) = ['*'] := by decide
  by_cases hs : hasSuffixChar '/' p = true
  · obtain ⟨q, hq⟩ := exists_snoc_of_hasSuffixChar _ _ hs
    have hp : '/' ∈ p := by rw [hq]; simp
    rw [prepareSearchPattern_of_slash p hp, if_pos hs, removeChar_append, removeChar_append,
      hstar, hasSuffixChar_snoc]
    decide
  · by_cases hp : '/' ∈ p
    · rw [prepareSearchPattern_of_slash p hp, if_neg hs]
      rcases h with h | h
      · exact absurd h hs
      · exact h
    · have hidx : strIndex '/' p < 0 := (strIndex_neg_iff _ _).mpr hp
      have hsuf : hasSuffixChar '/' (p ++ "/".toList) = true := hasSuffixChar_snoc '/' '/' p
      unfold prepareSearchPattern
      simp only [hidx, if_true, hsuf]
      rw [removeChar_append, removeChar_append, hstar, hasSuffixChar_snoc]
      decide

/-- A pattern with `/`, without parentheses and not ending in `/` is its own
normalized pattern. -/
theorem prepareSearchPattern_fixed (r : Str) (h1 : '/' ∈ r) (h2 : '(' ∉ r) (h3 : ')' ∉ r)
    (h4 : hasSuffixChar '/' r = false) : prepareSearchPattern r = r := by
  have h5 : ¬ (hasSuffixChar '/' r = true) := by simp [h4]
  rw [prepareSearchPattern_of_slash r h1, if_neg h5, removeChar_eq_self '(' r h2,
    removeChar_eq_self ')' r h3]

/-- The normalized pattern keeps the text before the first `/`, without its
parentheses, in front of its first `/`. -/
theorem prepareSearchPattern_split (r rest : Str) :
    ∃ rest1, prepareSearchPattern (r ++ '/' :: rest)
      = removeChar ')' (removeChar '(' r) ++ '/' :: rest1 := by
  have hp : '/' ∈ r ++ '/' :: rest := by simp
  have hsl : removeChar ')' (removeChar '(' ['/']) = ['/'] := by decide
  rw [prepareSearchPattern_of_slash _ hp]
  have hform : ∀ x : Str, removeChar ')' (removeChar '(' (r ++ '/' :: x))
      = removeChar ')' (removeChar '(' r) ++ '/' :: removeChar ')' (removeChar '(' x) := by
    intro x
    have : r ++ '/' :: x = r ++ (['/'] ++ x) := by simp
    rw [this, removeChar_append, removeChar_append, removeChar_append, removeChar_append, hsl]
    simp
  by_cases hs : hasSuffixChar '/' (r ++ '/' :: rest) = true
  · rw [if_pos hs]
    have : r ++ '/' :: rest ++ "*".toList = r ++ '/' :: (rest ++ "*".toList) := by simp
    rw [this, hform]
    exact ⟨_, rfl⟩
  · rw [if_neg hs, hform]
    exact ⟨_, rfl⟩

/-! ## The folder pairs -/

theorem getElem?_append_length (pre : Str) (c : Char) (cs : Str) :
    (pre ++ c :: cs)[pre.length]? = some c := by
  induction pre with
  | nil => simp
  | cons x xs ih => simpa using ih

theorem folderLoop_spec (path L : Str) :
    ∀ (rest pre : Str) (pairs : List PathFilePair), L = pre ++ rest →
      folderLoop path L pre.length rest pairs
        = pairs ++ ((List.range' pre.length rest.length).filter
            (fun k => L[k]? == some '*')).map
            (fun k => (⟨filepathJoin [path, L.take (k + 1)], L.drop k⟩ : PathFilePair)) := by
  intro rest
  induction rest with
  | nil => intro pre pairs _; simp [folderLoop]
  | cons c cs ih =>
    intro pre pairs hL
    have hget : L[pre.length]? = some c := by
      rw [hL]; exact getElem?_append_length pre c cs
    have hL1 : L = (pre ++ [c]) ++ cs := by simp [hL]
    have hlen : (pre ++ [c]).length = pre.length + 1 := by simp
    have h := ih (pre ++ [c])
      (if c = '*' then
        pairs ++ [⟨filepathJoin [path, L.take (pre.length + 1)], L.drop pre.length⟩]
       else pairs) hL1
    rw [hlen] at h
    rw [folderLoop]
    simp only [List.length_cons, List.range'_succ, List.filter_cons, hget]
    rw [h]
    by_cases hc : c = '*'
    · subst hc; simp
    · have hc1 : ¬ ((some c == some '*') = true) := by simpa using hc
      simp [hc, hc1]

theorem count_range_filter (L : Str) :
    ∀ (rest pre : Str), L = pre ++ rest →
      ((List.range' pre.length rest.length).filter
        (fun k => L[k]? == some '*')).length = rest.count '*' := by
  intro rest
  induction rest with
  | nil => intro pre _; simp
  | cons c cs ih =>
    intro pre hL
    have hget : L[pre.length]? = some c := by
      rw [hL]; exact getElem?_append_length pre c cs
    have hL1 : L = (pre ++ [c]) ++ cs := by simp [hL]
    have hlen : (pre ++ [c]).length = pre.length + 1 := by simp
    have h := ih (pre ++ [c]) hL1
    rw [hlen] at h
    simp only [List.length_cons, List.range'_succ, List.filter_cons, hget]
    by_cases hc : c = '*'
    · subst hc; simp [h]
    · have hc1 : ¬ ((some c == some '*') = true) := by simpa using hc
      have hc2 : ¬ ((c == '*') = true) := by simpa using hc
      simp [hc1, h, List.count_cons, hc2]

theorem starIndices_length (s : Str) : (starIndices s).length = s.count '*' := by
  have h := count_range_filter s s [] rfl
  simpa [starIndices, List.range_eq_range'] using h

theorem folderLoop_eq (path L : Str) (pairs : List PathFilePair) :
    folderLoop path L 0 L pairs
      = pairs ++ (starIndices L).map
          (fun k => (⟨filepathJoin [path, L.take (k + 1)], L.drop k⟩ : PathFilePair)) := by
  have h := folderLoop_spec path L L [] pairs rfl
  simpa [starIndices, List.range_eq_range'] using h

theorem strIndex_bounds (c : Char) (s : Str) :
    -1 ≤ strIndex c s ∧ strIndex c s < s.length := by
  induction s with
  | nil => simp [strIndex]
  | cons x xs ih =>
    unfold strIndex
    by_cases hx : x = c
    · simp only [hx, if_true, List.length_cons]
      constructor <;> omega
    · by_cases h : strIndex c xs < 0
      · simp only [hx, h, if_false, if_true, List.length_cons]
        constructor <;> omega
      · simp only [hx, h, if_false, List.length_cons]
        obtain ⟨h1, h2⟩ := ih
        constructor
        · omega
        · push_cast; omega

theorem filepathJoin_dot (x : Str) (hs : '/' ∉ x) (h0 : x ≠ []) (h1 : x ≠ ".".toList)
    (h2 : x ≠ "..".toList) : filepathJoin [".".toList, x] = x := by
  have hd : List.dropWhile (fun e => decide (e = [])) [".".toList, x] = [".".toList, x] := by
    simp [List.dropWhile]
  have hi : "/".toList.intercalate [".".toList, x] = '.' :: '/' :: x := by
    simp [List.intercalate, List.intersperse]
  have hsplit : strSplit '/' ('.' :: '/' :: x) = [['.'], x] := by
    have : ('.' :: '/' :: x) = ['.'] ++ '/' :: x := rfl
    rw [this, strSplit_append _ _ _ (by decide), strSplit_not_mem _ _ hs]
  have hne : ¬ (x = [] ∨ x = ".".toList) := by
    intro h; rcases h with h | h
    · exact h0 h
    · exact h1 h
  have hstep : cleanStep false [] x = [x] := by
    unfold cleanStep
    rw [if_neg hne, if_neg h2]
    rfl
  unfold filepathJoin
  rw [hd]
  simp only [hi]
  unfold pathClean
  rw [if_neg (by simp)]
  simp only [hsplit, List.foldl_cons, List.foldl_nil]
  have hdot : cleanStep (('.' :: '/' :: x).head? == some '/') [] ['.'] = [] := by
    simp [cleanStep]
  rw [hdot]
  have hr : (('.' :: '/' :: x).head? == some '/') = false := rfl
  rw [hr, hstep]
  simp [List.intercalate, List.intersperse]

theorem take_succ_of_get (L : Str) (k : Nat) (c : Char) (h : L[k]? = some c) :
    L.take (k + 1) = L.take k ++ [c] := by
  rw [List.take_succ, h]
  rfl

theorem filepathJoin_dot_cut (L : Str) (k : Nat) (hs : '/' ∉ L) (h : L[k]? = some '*') :
    filepathJoin [".".toList, L.take (k + 1)] = L.take (k + 1) := by
  have ht := take_succ_of_get L k '*' h
  have hlast : (L.take (k + 1)).getLast? = some '*' := by rw [ht]; simp
  apply filepathJoin_dot
  · intro hm; exact hs (List.mem_of_mem_take hm)
  · intro e; rw [e] at hlast; simp at hlast
  · intro e; rw [e] at hlast; revert hlast; decide
  · intro e; rw [e] at hlast; revert hlast; decide

theorem strIndex_not_mem (c : Char) (s : Str) (h : c ∉ s) : strIndex c s = -1 := by
  have h1 := (strIndex_neg_iff c s).mpr h
  have h2 := (strIndex_bounds c s).1
  omega

theorem strLastIndex_not_mem (c : Char) (s : Str) (h : c ∉ s) : strLastIndex c s = -1 := by
  induction s with
  | nil => rfl
  | cons x xs ih =>
    have hx : ¬ x = c := fun e => h (by simp [e])
    have hxs : c ∉ xs := fun e => h (List.mem_cons_of_mem _ e)
    simp [strLastIndex, ih hxs, hx]

theorem sliceFrom_zero (s : Str) : sliceFrom s 0 = some s := by
  simp [sliceFrom]

/-- What `createPathFolderPairs` returns, given the remainder behind the
repository and its split at the last `/`; the last character of the pattern is
dropped whatever it is. -/
theorem createPathFolderPairs_eq (body : Str) (x : Char) (rem path lastSeg : Str)
    (hrem : ('/' ∉ removeChar ')' (removeChar '(' body) ∧
        rem = removeChar ')' (removeChar '(' body)) ∨
      ∃ repo, '/' ∉ repo ∧ removeChar ')' (removeChar '(' body) = repo ++ '/' :: rem)
    (hseg : ('/' ∉ rem ∧ lastSeg = rem ∧ path = ".".toList) ∨
      ('/' ∉ lastSeg ∧ rem = path ++ '/' :: lastSeg)) :
    createPathFolderPairs (body ++ [x])
      = some (⟨path, lastSeg⟩ :: (starIndices lastSeg).map (fun k =>
          (⟨filepathJoin [path, lastSeg.take (k + 1)], lastSeg.drop k⟩ : PathFilePair))) := by
  have hlen : (((body ++ [x]).length : Int) - 1) = (body.length : Int) := by
    simp
  have hfrom : sliceFrom (removeChar ')' (removeChar '(' body))
      (strIndex '/' (removeChar ')' (removeChar '(' body)) + 1) = some rem := by
    rcases hrem with ⟨h1, h2⟩ | ⟨repo, h1, h2⟩
    · rw [strIndex_not_mem _ _ h1, h2]
      exact sliceFrom_zero _
    · rw [h2, strIndex_append _ _ _ h1, sliceFrom_append]
  unfold createPathFolderPairs
  rw [hlen, sliceTo_append]
  simp only [hfrom]
  rcases hseg with ⟨h1, h2, h3⟩ | ⟨h1, h2⟩
  · have hidx : strLastIndex '/' rem = -1 := strLastIndex_not_mem _ _ h1
    simp only [hidx, ne_eq, not_true_eq_false, if_false]
    rw [folderLoop_eq, h2, h3]
    simp
  · have hidx : strLastIndex '/' rem = path.length := by
      rw [h2]; exact strLastIndex_append _ _ _ h1
    have hne : (path.length : Int) ≠ -1 := by omega
    simp only [hidx, hne, ne_eq, not_false_eq_true, if_true]
    rw [h2, sliceFrom_append, sliceTo_append]
    simp only
    rw [folderLoop_eq]
    simp

theorem createPathFolderPairs_total (sp : Str) (h : sp ≠ []) :
    ∃ pairs, createPathFolderPairs sp = some pairs := by
  rcases List.eq_nil_or_concat sp with hn | ⟨body, x, hb⟩
  · exact absurd hn h
  · rw [List.concat_eq_append] at hb
    subst hb
    have hrem : ∃ rem, ('/' ∉ removeChar ')' (removeChar '(' body) ∧
        rem = removeChar ')' (removeChar '(' body)) ∨
        ∃ repo, '/' ∉ repo ∧ removeChar ')' (removeChar '(' body) = repo ++ '/' :: rem := by
      by_cases hs : '/' ∈ removeChar ')' (removeChar '(' body)
      · obtain ⟨a, b, hab, ha⟩ := exists_first_split '/' _ hs
        exact ⟨b, Or.inr ⟨a, ha, hab⟩⟩
      · exact ⟨_, Or.inl ⟨hs, rfl⟩⟩
    obtain ⟨rem, hrem⟩ := hrem
    have hseg : ∃ path lastSeg, ('/' ∉ rem ∧ lastSeg = rem ∧ path = ".".toList) ∨
        ('/' ∉ lastSeg ∧ rem = path ++ '/' :: lastSeg) := by
      by_cases hs : '/' ∈ rem
      · obtain ⟨a, b, hab, hb⟩ := exists_last_split '/' _ hs
        exact ⟨a, b, Or.inr ⟨hb, hab⟩⟩
      · exact ⟨_, _, Or.inl ⟨hs, rfl, rfl⟩⟩
    obtain ⟨path, lastSeg, hseg⟩ := hseg
    exact ⟨_, createPathFolderPairs_eq body x rem path lastSeg hrem hseg⟩

/-- The text of the sections is the text before a section, the section, and the
sections after it. -/
theorem lead_append_joinTail (pre : List Str) (s : Str) (post : List Str) :
    ∀ s0 r, pre ++ s :: post = s0 :: r →
      s0 ++ joinTail r = lead pre ++ s ++ joinTail post := by
  intro s0 r h
  cases pre with
  | nil =>
    simp only [List.nil_append, List.cons.injEq] at h
    rw [← h.1, ← h.2]
    simp [lead]
  | cons p ps =>
    simp only [List.cons_append, List.cons.injEq] at h
    rw [← h.1, ← h.2, joinTail_append]
    simp [lead, joinTail]

/-- Every candidate string of `createPathFilePairs` has exactly one `/`, and its
split on `/` has two parts. -/
theorem candidate_one_slash (name : Str) (hn : '/' ∉ name) (i : Nat)
    (hi : i + 1 < (strSplit '*' name).length) :
    (joinSections i ((strSplit '*' name).getD i [] ++ "*/".toList) 0
        (strSplit '*' name) []).count '/' = 1 ∧
    (strSplit '/' (joinSections i ((strSplit '*' name).getD i [] ++ "*/".toList) 0
        (strSplit '*' name) [])).length = 2 := by
  obtain ⟨s0, r, h1, h2, _, _⟩ := strSplit_star name
  generalize hsecs : strSplit '*' name = secs at hi h1 ⊢
  have hi0 : i < secs.length := by omega
  have hdecomp : secs = secs.take i ++ secs[i] :: secs.drop (i + 1) := by
    rw [List.getElem_cons_drop, List.take_append_drop]
  have hgetD : secs.getD i [] = secs[i] := by
    simp [List.getD, List.getElem?_eq_getElem hi0]
  have hpost : secs.drop (i + 1) ≠ [] := by
    intro e
    have := congrArg List.length e
    simp at this
    omega
  obtain ⟨t, ts, hts⟩ := List.exists_cons_of_ne_nil hpost
  have hlen : (secs.take i).length = i := by
    simp; omega
  have htext : name = lead (secs.take i) ++ secs[i] ++ joinTail (t :: ts) := by
    rw [h2]
    apply lead_append_joinTail (secs.take i) secs[i] (t :: ts) s0 r
    rw [← hts, ← hdecomp, h1]
  have hA : '/' ∉ lead (secs.take i) ++ secs[i] ++ ['*'] := by
    intro hm
    simp only [List.mem_append, List.mem_singleton] at hm
    rcases hm with (hm | hm) | hm
    · exact hn (by rw [htext]; simp [hm])
    · exact hn (by rw [htext]; simp [hm])
    · revert hm; decide
  have hB : '/' ∉ '*' :: (t ++ joinTail ts) := by
    intro hm
    have hstar : ¬ ('/' = '*') := by decide
    simp only [List.mem_append, List.mem_cons, hstar, false_or] at hm
    apply hn
    rw [htext]
    rcases hm with hm | hm
    · simp [joinTail, hm]
    · simp [joinTail, hm]
  have hjoin : joinSections i (secs.getD i [] ++ "*/".toList) 0 secs []
      = (lead (secs.take i) ++ secs[i] ++ ['*']) ++ '/' :: ('*' :: (t ++ joinTail ts)) := by
    rw [hgetD]
    have h3 := joinSections_zero (secs.take i) secs[i] (secs[i] ++ "*/".toList) (t :: ts)
    rw [hlen, ← hts, ← hdecomp] at h3
    rw [h3, hts]
    simp [joinTail]
  rw [hjoin]
  constructor
  · rw [List.count_append, List.count_cons, List.count_eq_zero_of_not_mem hA]
    have hB1 : '/' ∉ (t ++ joinTail ts) := fun hm => hB (List.mem_cons_of_mem _ hm)
    rw [List.count_cons, List.count_eq_zero_of_not_mem hB1]
    decide
  · rw [strSplit_append _ _ _ hA, strSplit_not_mem _ _ hB]
    rfl

/-! ## The decomposition of the spec -/

/-- With an outer path, the later candidates of `createPathFilePairs` carry two
and more `/` (the slip of C14), so that `a/*b*c*` matches `a/xb/c` while no
returned pair does; with the last `/` in front, the candidate loses it, so that
`/a*` does not match `a/x` while the returned pair `("a*", "*")` does. -/
theorem createPathFilePairs_slip_examples :
    (globMatch "a/*b*c*".toList ("a/xb".toList ++ '/' :: "c".toList) = true ∧
      (createPathFilePairs "a/*b*c*".toList true).map
        (fun pairs => pairsMatch pairs "a/xb".toList "c".toList) = some false) ∧
    (globMatch "/a*".toList ("a".toList ++ '/' :: "x".toList) = false ∧
      (createPathFilePairs "/a*".toList true).map
        (fun pairs => pairsMatch pairs "a".toList "x".toList) = some true) := by
  decide

set_option maxRecDepth 100000 in
/-- The indices of `Aql.UnmarshalJSON` are byte indices: in the text
`{"é":{"a":1}}` the letter `é` is two bytes, and the stored body starts at the
colon, as in the code. -/
theorem UnmarshalJSON_bytes_example :
    Aql.UnmarshalJSON (goBytes "\x7b\"é\":\x7b\"a\":1\x7d\x7d")
      = some ":\x7b\"a\":1\x7d".toList := by
  decide

/-- C2: for every pattern `p`, `createPathFilePairs(p, false)` returns exactly
one pair: `(".", p)` when `p` has no `/`, and otherwise the text before the last
`/` of `p` with the text after it. -/
theorem C2_flat_single_pair (p : Str) :
    ∃ pr, createPathFilePairs p false = some [pr] ∧
      ('/' ∉ p → pr = ⟨".".toList, p⟩) ∧
      ('/' ∈ p → p = pr.path ++ '/' :: pr.file ∧ '/' ∉ pr.file) := by
  by_cases hs : '/' ∈ p
  · obtain ⟨a, b, hab, hb⟩ := exists_last_split '/' p hs
    subst hab
    exact ⟨⟨a, b⟩, createPathFilePairs_flat_slash a b hb, fun h => absurd hs h,
      fun _ => ⟨rfl, hb⟩⟩
  · exact ⟨⟨".".toList, p⟩, createPathFilePairs_flat_noslash p hs, fun _ => rfl,
      fun h => absurd h hs⟩

theorem C2_flat_single_pair_witness :
    ('/' ∈ "a/*b/c*".toList ∧
      ∃ pr, createPathFilePairs "a/*b/c*".toList false = some [pr] ∧
        "a/*b/c*".toList = pr.path ++ '/' :: pr.file ∧ '/' ∉ pr.file) ∧
    ('/' ∉ "c*d".toList ∧
      createPathFilePairs "c*d".toList false = some [⟨".".toList, "c*d".toList⟩]) := by
  obtain ⟨pr, h1, _, h3⟩ := C2_flat_single_pair "a/*b/c*".toList
  obtain ⟨pr2, h4, h5, _⟩ := C2_flat_single_pair "c*d".toList
  refine ⟨⟨by decide, pr, h1, h3 (by decide)⟩, by decide, ?_⟩
  rw [h4, h5 (by decide)]

/-- C3, as stated, fails: `createPathFilePairs("a/*b*c*", true)` does not return
3 pairs. -/
theorem C3_counterexample :
    (createPathFilePairs "a/*b*c*".toList true).map List.length ≠ some 3 := by
  decide

/-- C3 (amended): `createPathFilePairs("a/*b*c*", true)` returns exactly 4 pairs:
the direct pair `("a", "*b*c*")` first, then one pair for each of the 3 `*` of the
name `*b*c*`, whose name globs start at those wildcards. -/
theorem C3_example_four_pairs :
    ∃ pairs, createPathFilePairs "a/*b*c*".toList true = some pairs ∧
      pairs.length = 4 ∧
      pairs.head? = some ⟨"a".toList, "*b*c*".toList⟩ ∧
      "*b*c*".toList.count '*' = 3 ∧
      pairs.tail.map PathFilePair.file
        = ["*b*c*".toList, "*c*".toList, "*".toList] :=
  ⟨_, rfl, by decide, by decide, by decide, by decide⟩

/-- C4: `createPathFilePairs("*", true)` is the one-element list `[("*", "*")]`
and `createPathFilePairs("*", false)` is the one-element list `[(".", "*")]`. -/
theorem C4_star_pattern :
    createPathFilePairs "*".toList true = some [⟨"*".toList, "*".toList⟩] ∧
    createPathFilePairs "*".toList false = some [⟨".".toList, "*".toList⟩] := by
  decide

/-- C5: for every search pattern, recursive flag, return-field list and props
string accepted by the property builder, `BuildAqlSearchQuery` returns, without
error, exactly `items.find({"repo": "R",Q"$or": [{C1},...,{CN}]}).include(J)`: `R`
the text of the normalized pattern before its first `/`, `Q` the fragment of
`buildPropsQuery`, the `Ci` the clauses `buildInnerQuery(path, file, "")` of the
pairs of `createPathFilePairs` on the rest of the normalized pattern, in pair
order and comma-separated, and `J` the return fields joined by `,`; no field
renders `include()` and the fields `f1`, `f2` render `include(f1,f2)`. -/
theorem C5_search_query_shape {ε : Type} (splitProp : Str → Str × Str × Option ε)
    (searchPattern : Str) (recursive : Bool) (props : Str) (fields : List Str)
    (hprops : (buildPropsQuery splitProp props).2 = none) :
    (∃ repo rest pairs,
      prepareSearchPattern searchPattern = repo ++ '/' :: rest ∧ '/' ∉ repo ∧
      createPathFilePairs rest recursive = some pairs ∧
      BuildAqlSearchQuery splitProp searchPattern recursive props fields =
        some ("items.find(\x7b\"repo\": \"".toList ++ repo ++ "\",".toList ++
          (buildPropsQuery splitProp props).1 ++ "\"$or\": [".toList ++
          ",".toList.intercalate (pairs.map (fun pr =>
            "\x7b".toList ++ buildInnerQuery pr.path pr.file [] ++ "\x7d".toList)) ++
          "]\x7d).include(".toList ++ ",".toList.intercalate fields ++ ")".toList, none)) ∧
    buildAqlReturnFieldsString [] = [] ∧
    buildAqlReturnFieldsString ["f1".toList, "f2".toList] = "f1,f2".toList := by
  refine ⟨?_, rfl, by decide⟩
  obtain ⟨repo, rest, hprep, hrepo⟩ :=
    exists_first_split '/' _ (prepareSearchPattern_slash searchPattern)
  obtain ⟨pairs, hpairs, hne⟩ := createPathFilePairs_total rest recursive
  refine ⟨repo, rest, pairs, hprep, hrepo, hpairs, ?_⟩
  rw [BuildAqlSearchQuery_eq splitProp searchPattern recursive props fields repo rest pairs
    hprep hrepo hpairs hne]
  rcases hq : buildPropsQuery splitProp props with ⟨q, err⟩
  rw [hq] at hprops
  simp only at hprops
  subst hprops
  rfl

theorem C5_search_query_shape_witness :
    (buildPropsQuery SplitProp "a=1".toList).2 = none ∧
    ((∃ repo rest pairs,
      prepareSearchPattern "r/x*".toList = repo ++ '/' :: rest ∧ '/' ∉ repo ∧
      createPathFilePairs rest true = some pairs ∧
      BuildAqlSearchQuery SplitProp "r/x*".toList true "a=1".toList ["f1".toList] =
        some ("items.find(\x7b\"repo\": \"".toList ++ repo ++ "\",".toList ++
          (buildPropsQuery SplitProp "a=1".toList).1 ++ "\"$or\": [".toList ++
          ",".toList.intercalate (pairs.map (fun pr =>
            "\x7b".toList ++ buildInnerQuery pr.path pr.file [] ++ "\x7d".toList)) ++
          "]\x7d).include(".toList ++ ",".toList.intercalate ["f1".toList] ++ ")".toList,
          none)) ∧
    buildAqlReturnFieldsString [] = [] ∧
    buildAqlReturnFieldsString ["f1".toList, "f2".toList] = "f1,f2".toList) :=
  ⟨by decide,
    C5_search_query_shape SplitProp "r/x*".toList true "a=1".toList ["f1".toList] (by decide)⟩

/-- C6: for every path, name and item type, the clause of `buildInnerQuery` has
the path matcher followed (after the optional root exclusion) by the name matcher;
with a non-empty item type the type matcher comes last before the closing `}]`,
and with the empty item type there is none: the clause is exactly
`"$and": [{"path": {"$match": "<path>"},"name": {"$match": "<name>"}}]`. -/
theorem C6_inner_query_shape (path name itemType : Str) :
    (itemType ≠ [] →
      ∃ ne, (ne = [] ∨ ne = rootExclusion) ∧
        buildInnerQuery path name itemType =
          "\"$and\": [\x7b".toList ++ pathMatcher path ++ ",".toList ++ ne ++
            nameMatcher name ++ typeMatcher itemType ++ "\x7d]".toList) ∧
    (itemType = [] →
      buildInnerQuery path name itemType =
        "\"$and\": [\x7b".toList ++ pathMatcher path ++ ",".toList ++
          nameMatcher name ++ "\x7d]".toList ∧
      buildInnerQuery path name itemType =
        "\"$and\": [\x7b\"path\": \x7b\"$match\": \"".toList ++ path ++
          "\"\x7d,\"name\": \x7b\"$match\": \"".toList ++ name ++ "\"\x7d\x7d]".toList) := by
  constructor
  · intro ht
    by_cases hne : itemType = "folder".toList ∧ path = "*".toList ∧ name = "*".toList
    · refine ⟨rootExclusion, Or.inr rfl, ?_⟩
      simp only [buildInnerQuery, hne, pathMatcher, nameMatcher, typeMatcher, rootExclusion]
      simp [ht]
    · refine ⟨[], Or.inl rfl, ?_⟩
      simp only [buildInnerQuery, hne, pathMatcher, nameMatcher, typeMatcher]
      simp [ht]
  · intro ht
    subst ht
    have hne : ¬ (([] : Str) = "folder".toList ∧ path = "*".toList ∧ name = "*".toList) := by
      intro h; exact absurd h.1 (by decide)
    constructor
    · simp only [buildInnerQuery, hne, pathMatcher, nameMatcher]
      simp
    · simp only [buildInnerQuery, hne]
      simp

theorem C6_inner_query_shape_witness :
    ("file".toList ≠ [] ∧
      ∃ ne, (ne = [] ∨ ne = rootExclusion) ∧
        buildInnerQuery "a/*".toList "*.tgz".toList "file".toList =
          "\"$and\": [\x7b".toList ++ pathMatcher "a/*".toList ++ ",".toList ++ ne ++
            nameMatcher "*.tgz".toList ++ typeMatcher "file".toList ++ "\x7d]".toList) ∧
    buildInnerQuery "a/*".toList "*.tgz".toList [] =
      "\"$and\": [\x7b\"path\": \x7b\"$match\": \"".toList ++ "a/*".toList ++
        "\"\x7d,\"name\": \x7b\"$match\": \"".toList ++ "*.tgz".toList ++ "\"\x7d\x7d]".toList :=
  ⟨⟨by decide, (C6_inner_query_shape "a/*".toList "*.tgz".toList "file".toList).1 (by decide)⟩,
    ((C6_inner_query_shape "a/*".toList "*.tgz".toList []).2 rfl).2⟩

/-- C7: in folder search, for every path and name, `buildInnerQuery(path, name,
"folder")` has the root exclusion `"path": {"$ne": "."},` between the path matcher
and the name matcher when path and name are both `*`, and for every other pair
(`(".", "*")` included) it is the clause without that fragment. -/
theorem C7_root_exclusion (path name : Str) :
    (path = "*".toList ∧ name = "*".toList →
      buildInnerQuery path name "folder".toList =
        "\"$and\": [\x7b".toList ++ pathMatcher path ++ ",".toList ++ rootExclusion ++
          nameMatcher name ++ typeMatcher "folder".toList ++ "\x7d]".toList) ∧
    (¬ (path = "*".toList ∧ name = "*".toList) →
      buildInnerQuery path name "folder".toList =
        "\"$and\": [\x7b".toList ++ pathMatcher path ++ ",".toList ++
          nameMatcher name ++ typeMatcher "folder".toList ++ "\x7d]".toList) ∧
    buildInnerQuery ".".toList "*".toList "folder".toList =
      "\"$and\": [\x7b".toList ++ pathMatcher ".".toList ++ ",".toList ++
        nameMatcher "*".toList ++ typeMatcher "folder".toList ++ "\x7d]".toList := by
  have hf : "folder".toList ≠ ([] : Str) := by decide
  refine ⟨?_, ?_, by decide⟩
  · intro h
    have h1 : "folder".toList = "folder".toList ∧ path = "*".toList ∧ name = "*".toList :=
      ⟨rfl, h⟩
    rw [buildInnerQuery, if_pos h1, if_pos hf]
    simp [pathMatcher, nameMatcher, typeMatcher, rootExclusion]
  · intro h
    have h1 : ¬ ("folder".toList = "folder".toList ∧ path = "*".toList ∧ name = "*".toList) :=
      fun h2 => h h2.2
    rw [buildInnerQuery, if_neg h1, if_pos hf]
    simp [pathMatcher, nameMatcher, typeMatcher]

theorem C7_root_exclusion_witness :
    (("*".toList = "*".toList ∧ "*".toList = "*".toList) ∧
      buildInnerQuery "*".toList "*".toList "folder".toList =
        "\"$and\": [\x7b".toList ++ pathMatcher "*".toList ++ ",".toList ++ rootExclusion ++
          nameMatcher "*".toList ++ typeMatcher "folder".toList ++ "\x7d]".toList) ∧
    (¬ ("a*".toList = "*".toList ∧ "*".toList = "*".toList) ∧
      buildInnerQuery "a*".toList "*".toList "folder".toList =
        "\"$and\": [\x7b".toList ++ pathMatcher "a*".toList ++ ",".toList ++
          nameMatcher "*".toList ++ typeMatcher "folder".toList ++ "\x7d]".toList) :=
  ⟨⟨by decide, (C7_root_exclusion "*".toList "*".toList).1 (by decide)⟩,
    ⟨by decide, (C7_root_exclusion "a*".toList "*".toList).2.1 (by decide)⟩⟩

/-- C8, as stated, fails: `createPathFolderPairs("*")` strips the last character
and returns the single pair `(".", "")`, which is not `("*", "*")`. -/
theorem C8_counterexample :
    createPathFolderPairs "*".toList = some [⟨".".toList, []⟩] ∧
    ∃ pairs, createPathFolderPairs "*".toList = some pairs ∧
      (⟨"*".toList, "*".toList⟩ : PathFilePair) ∉ pairs :=
  ⟨rfl, _, rfl, by decide⟩

set_option maxRecDepth 100000 in
/-- C8 (amended): for every repository name `r` without `/` and every return-field
list, `createPathFolderPairs(r + "/*/")` (the pattern `*` behind the repository,
with the trailing `/` the function strips) returns exactly
`[(".", "*"), ("*", "*")]`, and `BuildAqlFolderSearchQuery(r + "/*/", fields)`
renders these two pairs for folder search: the clause of `("*", "*")` has the root
exclusion, and the clause of the other pair `(".", "*")` does not contain it. -/
theorem C8_folder_star_pairs (repo : Str) (hrepo : '/' ∉ repo) (fields : List Str) :
    createPathFolderPairs (repo ++ "/*/".toList)
      = some [⟨".".toList, "*".toList⟩, ⟨"*".toList, "*".toList⟩] ∧
    BuildAqlFolderSearchQuery (repo ++ "/*/".toList) fields
      = some ("items.find(\x7b\"repo\": \"".toList ++ repo ++ "\",\"$or\": [".toList ++
          "\x7b".toList ++ buildInnerQuery ".".toList "*".toList "folder".toList ++
          "\x7d,\x7b".toList ++ buildInnerQuery "*".toList "*".toList "folder".toList ++
          "\x7d]\x7d).include(".toList ++ ",".toList.intercalate fields ++ ")".toList) ∧
    buildInnerQuery "*".toList "*".toList "folder".toList =
      "\"$and\": [\x7b".toList ++ pathMatcher "*".toList ++ ",".toList ++ rootExclusion ++
        nameMatcher "*".toList ++ typeMatcher "folder".toList ++ "\x7d]".toList ∧
    buildInnerQuery ".".toList "*".toList "folder".toList =
      "\"$and\": [\x7b".toList ++ pathMatcher ".".toList ++ ",".toList ++
        nameMatcher "*".toList ++ typeMatcher "folder".toList ++ "\x7d]".toList ∧
    ¬ (rootExclusion <:+: buildInnerQuery ".".toList "*".toList "folder".toList) := by
  have hpairs : createPathFolderPairs (repo ++ "/*/".toList)
      = some [⟨".".toList, "*".toList⟩, ⟨"*".toList, "*".toList⟩] := by
    have hsplit : repo ++ "/*/".toList = (repo ++ "/*".toList) ++ ['/'] := by simp
    have hlen : (((repo ++ "/*/".toList).length : Int) - 1)
        = ((repo ++ "/*".toList).length : Int) := by
      simp
      omega
    have hrm : removeChar ')' (removeChar '(' (repo ++ "/*".toList))
        = removeChar ')' (removeChar '(' repo) ++ '/' :: "*".toList := by
      rw [removeChar_append, removeChar_append]
      rfl
    have hrepo1 : '/' ∉ removeChar ')' (removeChar '(' repo) :=
      not_mem_removeChar _ _ _ (not_mem_removeChar _ _ _ hrepo)
    unfold createPathFolderPairs
    rw [hlen, hsplit, sliceTo_append]
    simp only [hrm, strIndex_append _ _ _ hrepo1, sliceFrom_append]
    rfl
  refine ⟨hpairs, ?_, by decide, by decide, by decide⟩
  have hidx : strIndex '/' (repo ++ "/*/".toList) = repo.length :=
    strIndex_append '/' repo "*/".toList hrepo
  unfold BuildAqlFolderSearchQuery
  simp only [hpairs, hidx, sliceTo_append]
  rw [clausesLoop_eq "folder".toList _ _ 0 _ (by simp), buildAqlReturnFieldsString_eq]
  simp [List.intercalate, List.intersperse]

theorem C8_folder_star_pairs_witness :
    '/' ∉ "libs-release".toList ∧
    createPathFolderPairs ("libs-release".toList ++ "/*/".toList)
      = some [⟨".".toList, "*".toList⟩, ⟨"*".toList, "*".toList⟩] ∧
    BuildAqlFolderSearchQuery ("libs-release".toList ++ "/*/".toList) ["name".toList]
      = some ("items.find(\x7b\"repo\": \"".toList ++ "libs-release".toList ++
          "\",\"$or\": [".toList ++
          "\x7b".toList ++ buildInnerQuery ".".toList "*".toList "folder".toList ++
          "\x7d,\x7b".toList ++ buildInnerQuery "*".toList "*".toList "folder".toList ++
          "\x7d]\x7d).include(".toList ++ ",".toList.intercalate ["name".toList] ++
          ")".toList) :=
  ⟨by decide,
    (C8_folder_star_pairs "libs-release".toList (by decide) ["name".toList]).1,
    (C8_folder_star_pairs "libs-release".toList (by decide) ["name".toList]).2.1⟩

/-- C9: `buildPropsQuery("")` is the empty fragment without error, and for every
non-empty props string whose `;`-separated entries are all accepted by the
key/value splitter, `buildPropsQuery` returns without error the concatenation, in
input order, of one clause `"@key": {"$match" : "value"},` per entry (repeated
keys included); when the splitter reads `a=1` as `(a, 1)` and `b=2` as `(b, 2)`,
the props `a=1;b=2` give the clause of `a` followed by the clause of `b`. -/
theorem C9_props_query {ε : Type} (splitProp : Str → Str × Str × Option ε) :
    buildPropsQuery splitProp [] = ([], none) ∧
    (∀ props : Str, props ≠ [] →
      (∀ e ∈ strSplit ';' props, (splitProp e).2.2 = none) →
      buildPropsQuery splitProp props =
        (((strSplit ';' props).map (fun e =>
          "\"@".toList ++ (splitProp e).1 ++ "\": \x7b\"$match\" : \"".toList ++
            (splitProp e).2.1 ++ "\"\x7d,".toList)).flatten, none)) ∧
    (splitProp "a=1".toList = ("a".toList, "1".toList, none) →
      splitProp "b=2".toList = ("b".toList, "2".toList, none) →
      buildPropsQuery splitProp "a=1;b=2".toList =
        ("\"@a\": \x7b\"$match\" : \"1\"\x7d,\"@b\": \x7b\"$match\" : \"2\"\x7d,".toList, none)) := by
  have hgen : ∀ props : Str, props ≠ [] →
      (∀ e ∈ strSplit ';' props, (splitProp e).2.2 = none) →
      buildPropsQuery splitProp props =
        (((strSplit ';' props).map (fun e =>
          "\"@".toList ++ (splitProp e).1 ++ "\": \x7b\"$match\" : \"".toList ++
            (splitProp e).2.1 ++ "\"\x7d,".toList)).flatten, none) := by
    intro props hp hall
    unfold buildPropsQuery
    rw [if_neg hp, propsLoop_accepted splitProp _ [] hall]
    rfl
  refine ⟨rfl, hgen, ?_⟩
  intro ha hb
  have hs : strSplit ';' "a=1;b=2".toList = ["a=1".toList, "b=2".toList] := by decide
  rw [hgen "a=1;b=2".toList (by decide) (by
    intro e he
    rw [hs] at he
    rcases List.mem_cons.mp he with h | h
    · rw [h, ha]
    · rw [List.mem_singleton.mp h, hb]), hs]
  simp only [List.map_cons, List.map_nil, ha, hb]
  rfl

theorem C9_props_query_witness :
    "k=v;k=w".toList ≠ [] ∧
    (∀ e ∈ strSplit ';' "k=v;k=w".toList, (SplitProp e).2.2 = none) ∧
    buildPropsQuery SplitProp "k=v;k=w".toList =
      (((strSplit ';' "k=v;k=w".toList).map (fun e =>
        "\"@".toList ++ (SplitProp e).1 ++ "\": \x7b\"$match\" : \"".toList ++
          (SplitProp e).2.1 ++ "\"\x7d,".toList)).flatten, none) ∧
    buildPropsQuery SplitProp "a=1;b=2".toList =
      ("\"@a\": \x7b\"$match\" : \"1\"\x7d,\"@b\": \x7b\"$match\" : \"2\"\x7d,".toList, none) :=
  ⟨by decide, by decide,
    (C9_props_query SplitProp).2.1 "k=v;k=w".toList (by decide) (by decide),
    (C9_props_query SplitProp).2.2 (by decide) (by decide)⟩

/-- C10: `BuildAqlSearchQuery` always returns, and it returns an error if and
only if props is non-empty and one of its `;`-separated entries is rejected by the
key/value splitter; the error is the one of `buildPropsQuery`; whenever there is
an error the returned query string is empty, and `buildPropsQuery` returns the
empty fragment together with its error. -/
theorem C10_error_iff_rejected_entry {ε : Type} (splitProp : Str → Str × Str × Option ε)
    (searchPattern : Str) (recursive : Bool) (props : Str) (fields : List Str) :
    ∃ query err,
      BuildAqlSearchQuery splitProp searchPattern recursive props fields = some (query, err) ∧
      (err ≠ none ↔ props ≠ [] ∧ ∃ e ∈ strSplit ';' props, (splitProp e).2.2 ≠ none) ∧
      (err ≠ none → query = []) ∧
      (buildPropsQuery splitProp props).2 = err ∧
      ((buildPropsQuery splitProp props).2 ≠ none →
        (buildPropsQuery splitProp props).1 = []) := by
  obtain ⟨repo, rest, hprep, hrepo⟩ :=
    exists_first_split '/' _ (prepareSearchPattern_slash searchPattern)
  obtain ⟨pairs, hpairs, hne⟩ := createPathFilePairs_total rest recursive
  have hiff : (buildPropsQuery splitProp props).2 ≠ none ↔
      props ≠ [] ∧ ∃ e ∈ strSplit ';' props, (splitProp e).2.2 ≠ none := by
    unfold buildPropsQuery
    by_cases hp : props = []
    · simp [hp]
    · rw [if_neg hp, propsLoop_error]
      simp [hp]
  have hempty : (buildPropsQuery splitProp props).2 ≠ none →
      (buildPropsQuery splitProp props).1 = [] := by
    unfold buildPropsQuery
    by_cases hp : props = []
    · simp [hp]
    · rw [if_neg hp]
      exact propsLoop_error_empty splitProp _ []
  rw [BuildAqlSearchQuery_eq splitProp searchPattern recursive props fields repo rest pairs
    hprep hrepo hpairs hne]
  rcases hq : buildPropsQuery splitProp props with ⟨q, err⟩
  rw [hq] at hiff hempty
  cases err with
  | some x =>
    exact ⟨[], some x, rfl, hiff, fun _ => rfl, rfl, hempty⟩
  | none =>
    exact ⟨_, none, rfl, hiff, fun h => absurd rfl h, rfl, hempty⟩

theorem C10_error_iff_rejected_entry_witness :
    BuildAqlSearchQuery SplitProp "r/x".toList true "a=1;b".toList []
      = some ([], some "Invalid property: b".toList) ∧
    (∃ e ∈ strSplit ';' "a=1;b".toList, (SplitProp e).2.2 ≠ none) := by
  obtain ⟨query, err, h1, h2, h3, h4, _⟩ :=
    C10_error_iff_rejected_entry SplitProp "r/x".toList true "a=1;b".toList []
  have herr : err = some "Invalid property: b".toList := by
    rw [← h4]; decide
  have hq : query = [] := h3 (by rw [herr]; simp)
  rw [h1, hq, herr]
  exact ⟨rfl, (h2.mp (by rw [herr]; simp)).2⟩

/-- C11: for every spec entry whose Pattern is non-empty, `Files.GetSpecType`
never returns `AQL`, whatever the raw body holds: it returns `WILDCARD` when the
pattern is a wildcard pattern and `SIMPLE` otherwise; it returns `AQL` only (and
always) when Pattern is empty and the raw body is non-empty. -/
theorem C11_pattern_priority (IsWildcardPattern : Str → Bool) (files : Files) :
    (files.Pattern ≠ [] →
      files.GetSpecType IsWildcardPattern ≠ AQL ∧
      (IsWildcardPattern files.Pattern = true →
        files.GetSpecType IsWildcardPattern = WILDCARD) ∧
      (IsWildcardPattern files.Pattern = false →
        files.GetSpecType IsWildcardPattern = SIMPLE)) ∧
    (files.GetSpecType IsWildcardPattern = AQL ↔
      files.Pattern = [] ∧ files.Aql.ItemsFind ≠ []) := by
  have hw : WILDCARD ≠ AQL := by decide
  have hs : SIMPLE ≠ AQL := by decide
  have he : ([] : SpecType) ≠ AQL := by decide
  unfold Files.GetSpecType
  by_cases hp : files.Pattern = []
  · by_cases hb : files.Aql.ItemsFind = []
    · simp [hp, hb, he]
    · simp [hp, hb]
  · cases hwc : IsWildcardPattern files.Pattern
    · simp [hp, hwc, hs]
    · simp [hp, hwc, hw]

theorem C11_pattern_priority_witness :
    (⟨"a/*.zip".toList, [], [], [], [], [], ⟨"\x7b\"repo\":\"r\"\x7d".toList⟩⟩ : Files).Pattern ≠ [] ∧
    Files.GetSpecType (fun s => s.contains '*')
      ⟨"a/*.zip".toList, [], [], [], [], [], ⟨"\x7b\"repo\":\"r\"\x7d".toList⟩⟩ ≠ AQL ∧
    Files.GetSpecType (fun s => s.contains '*')
      ⟨"a/*.zip".toList, [], [], [], [], [], ⟨"\x7b\"repo\":\"r\"\x7d".toList⟩⟩ = WILDCARD :=
  ⟨by decide,
    ((C11_pattern_priority (fun s => s.contains '*')
      ⟨"a/*.zip".toList, [], [], [], [], [], ⟨"\x7b\"repo\":\"r\"\x7d".toList⟩⟩).1 (by decide)).1,
    ((C11_pattern_priority (fun s => s.contains '*')
      ⟨"a/*.zip".toList, [], [], [], [], [], ⟨"\x7b\"repo\":\"r\"\x7d".toList⟩⟩).1
        (by decide)).2.1 (by decide)⟩

/-- C12: a bare repository name is treated as `name/*`: for every search pattern
`p` without `/`, `BuildAqlSearchQuery(p, ...)` returns the same result as
`BuildAqlSearchQuery(p + "/*", ...)`, and `prepareSearchPattern(p)` is `p + "/*"`
with all parentheses removed. -/
theorem C12_bare_repository {ε : Type} (splitProp : Str → Str × Str × Option ε)
    (p : Str) (hp : '/' ∉ p) (recursive : Bool) (props : Str) (fields : List Str) :
    BuildAqlSearchQuery splitProp p recursive props fields
      = BuildAqlSearchQuery splitProp (p ++ "/*".toList) recursive props fields ∧
    prepareSearchPattern p = removeChar ')' (removeChar '(' (p ++ "/*".toList)) := by
  refine ⟨?_, prepareSearchPattern_bare p hp⟩
  unfold BuildAqlSearchQuery
  rw [prepareSearchPattern_bare p hp, prepareSearchPattern_bare_star p]

theorem C12_bare_repository_witness :
    '/' ∉ "libs(x)".toList ∧
    BuildAqlSearchQuery SplitProp "libs(x)".toList true "a=1".toList ["name".toList]
      = BuildAqlSearchQuery SplitProp ("libs(x)".toList ++ "/*".toList) true "a=1".toList
          ["name".toList] ∧
    prepareSearchPattern "libs(x)".toList = "libsx/*".toList :=
  ⟨by decide,
    (C12_bare_repository SplitProp "libs(x)".toList (by decide) true "a=1".toList
      ["name".toList]).1,
    ((C12_bare_repository SplitProp "libs(x)".toList (by decide) true "a=1".toList
      ["name".toList]).2).trans (by decide)⟩

set_option maxRecDepth 100000 in
/-- C13, as stated, fails: for the search pattern `(r)/x` the text before the
first `/` is `(r)`, and the query of `BuildAqlSearchQuery` begins with
`items.find({"repo": "r",`, not with `items.find({"repo": "(r)",`. -/
theorem C13_counterexample :
    '/' ∈ "(r)/x".toList ∧
    ∃ q, BuildAqlSearchQuery SplitProp "(r)/x".toList false [] [] = some (q, none) ∧
      "items.find(\x7b\"repo\": \"r\",".toList <+: q ∧
      ¬ ("items.find(\x7b\"repo\": \"(r)\",".toList <+: q) :=
  ⟨by decide, _, rfl, by decide, by decide⟩

/-- C13 (amended): for every search pattern that contains a `/`, with `r` its
text before the first `/`: the query of `BuildAqlSearchQuery` (with accepted
props) begins with `items.find({"repo": "r'",` where `r'` is `r` with its
parentheses removed, and the query of `BuildAqlFolderSearchQuery` begins with
`items.find({"repo": "r",`. -/
theorem C13_repository_rendered {ε : Type} (splitProp : Str → Str × Str × Option ε)
    (r rest : Str) (hr : '/' ∉ r) (recursive : Bool) (props : Str) (fields : List Str)
    (hprops : (buildPropsQuery splitProp props).2 = none) :
    (∃ q, BuildAqlSearchQuery splitProp (r ++ '/' :: rest) recursive props fields
        = some (q, none) ∧
      "items.find(\x7b\"repo\": \"".toList ++ removeChar ')' (removeChar '(' r) ++
        "\",".toList <+: q) ∧
    (∃ q, BuildAqlFolderSearchQuery (r ++ '/' :: rest) fields = some q ∧
      "items.find(\x7b\"repo\": \"".toList ++ r ++ "\",".toList <+: q) := by
  constructor
  · obtain ⟨rest1, hprep⟩ := prepareSearchPattern_split r rest
    have hr1 : '/' ∉ removeChar ')' (removeChar '(' r) :=
      not_mem_removeChar _ _ _ (not_mem_removeChar _ _ _ hr)
    obtain ⟨pairs, hpairs, hne⟩ := createPathFilePairs_total rest1 recursive
    rw [BuildAqlSearchQuery_eq splitProp _ recursive props fields _ rest1 pairs hprep hr1
      hpairs hne]
    rcases hq : buildPropsQuery splitProp props with ⟨pq, err⟩
    rw [hq] at hprops
    simp only at hprops
    subst hprops
    refine ⟨_, rfl, ?_⟩
    simp
  · obtain ⟨pairs, hpairs⟩ := createPathFolderPairs_total (r ++ '/' :: rest) (by simp)
    unfold BuildAqlFolderSearchQuery
    simp only [hpairs, strIndex_append _ _ _ hr, sliceTo_append]
    rw [clausesLoop_eq "folder".toList pairs.length pairs 0 _ (by simp)]
    refine ⟨_, rfl, ?_⟩
    simp

theorem C13_repository_rendered_witness :
    '/' ∉ "li(b)s".toList ∧ (buildPropsQuery SplitProp "a=1".toList).2 = none ∧
    (∃ q, BuildAqlSearchQuery SplitProp ("li(b)s".toList ++ '/' :: "x/*.zip".toList) true
        "a=1".toList [] = some (q, none) ∧
      "items.find(\x7b\"repo\": \"".toList ++ removeChar ')' (removeChar '(' "li(b)s".toList) ++
        "\",".toList <+: q) ∧
    (∃ q, BuildAqlFolderSearchQuery ("li(b)s".toList ++ '/' :: "x/*.zip".toList) [] = some q ∧
      "items.find(\x7b\"repo\": \"".toList ++ "li(b)s".toList ++ "\",".toList <+: q) :=
  ⟨by decide, by decide,
    C13_repository_rendered SplitProp "li(b)s".toList "x/*.zip".toList (by decide) true
      "a=1".toList [] (by decide)⟩

/-- C14 fails on the code at `createPathFilePairs("a/*b*c*", true)`: the variable
`path` receives one more `/` before every candidate, so the candidates of the
second and third `*` are `("a//*b*", "*c*")` and `("a///*b*c*", "*")`, where the
claim has `("a/*b*", "*c*")` and `("a/*b*c*", "*")`. -/
theorem C14_failing_input :
    createPathFilePairs "a/*b*c*".toList true
      = some [⟨"a".toList, "*b*c*".toList⟩, ⟨"a/*".toList, "*b*c*".toList⟩,
          ⟨"a//*b*".toList, "*c*".toList⟩, ⟨"a///*b*c*".toList, "*".toList⟩] ∧
    createPathFilePairs "a/*b*c*".toList true
      ≠ some [⟨"a".toList, "*b*c*".toList⟩, ⟨"a/*".toList, "*b*c*".toList⟩,
          ⟨"a/*b*".toList, "*c*".toList⟩, ⟨"a/*b*c*".toList, "*".toList⟩] := by
  decide

/-- C15: for every string `P`, `createPathFilePairs(P + "/*", true)` is exactly
the two-element list `[(P, "*"), (P + "/*", "*")]`. -/
theorem C15_any_depth_pair (P : Str) :
    createPathFilePairs (P ++ "/*".toList) true
      = some [⟨P, "*".toList⟩, ⟨P ++ "/*".toList, "*".toList⟩] := by
  have h := createPathFilePairs_slash P "*".toList (by decide)
  simpa using h

/-- C16: for every folder search pattern that ends with `/`: with the trailing
`/`, all parentheses and the repository up to the first `/` removed, `lastSeg` the
text after the final `/` of the remainder (the whole remainder if none) and `path`
the text before it (`.` if none), `createPathFolderPairs` returns exactly
`1 +` (number of `*` in `lastSeg`) pairs: first `(path, lastSeg)`, then for every
index `k` with `lastSeg[k] = '*'`, in increasing order, the pair
`(join(path, lastSeg[0..k+1]), lastSeg[k..])` with the cleaned path join; with path
`.` the joined path is just `lastSeg[0..k+1]`. -/
theorem C16_folder_pairs (body : Str) :
    ∃ rem path lastSeg,
      (('/' ∉ removeChar ')' (removeChar '(' body) ∧
          rem = removeChar ')' (removeChar '(' body)) ∨
        ∃ repo, '/' ∉ repo ∧ removeChar ')' (removeChar '(' body) = repo ++ '/' :: rem) ∧
      (('/' ∉ rem ∧ lastSeg = rem ∧ path = ".".toList) ∨
        ('/' ∉ lastSeg ∧ rem = path ++ '/' :: lastSeg)) ∧
      createPathFolderPairs (body ++ "/".toList)
        = some (⟨path, lastSeg⟩ :: (starIndices lastSeg).map (fun k =>
            (⟨filepathJoin [path, lastSeg.take (k + 1)], lastSeg.drop k⟩ : PathFilePair))) ∧
      (⟨path, lastSeg⟩ :: (starIndices lastSeg).map (fun k =>
            (⟨filepathJoin [path, lastSeg.take (k + 1)], lastSeg.drop k⟩ : PathFilePair))).length
        = 1 + lastSeg.count '*' ∧
      (path = ".".toList → ∀ k ∈ starIndices lastSeg,
        filepathJoin [path, lastSeg.take (k + 1)] = lastSeg.take (k + 1)) := by
  have hrem : ∃ rem, ('/' ∉ removeChar ')' (removeChar '(' body) ∧
      rem = removeChar ')' (removeChar '(' body)) ∨
      ∃ repo, '/' ∉ repo ∧ removeChar ')' (removeChar '(' body) = repo ++ '/' :: rem := by
    by_cases hs : '/' ∈ removeChar ')' (removeChar '(' body)
    · obtain ⟨a, b, hab, ha⟩ := exists_first_split '/' _ hs
      exact ⟨b, Or.inr ⟨a, ha, hab⟩⟩
    · exact ⟨_, Or.inl ⟨hs, rfl⟩⟩
  obtain ⟨rem, hrem⟩ := hrem
  have hseg : ∃ path lastSeg, (('/' ∉ rem ∧ lastSeg = rem ∧ path = ".".toList) ∨
      ('/' ∉ lastSeg ∧ rem = path ++ '/' :: lastSeg)) ∧ '/' ∉ lastSeg := by
    by_cases hs : '/' ∈ rem
    · obtain ⟨a, b, hab, hb⟩ := exists_last_split '/' _ hs
      exact ⟨a, b, Or.inr ⟨hb, hab⟩, hb⟩
    · exact ⟨_, _, Or.inl ⟨hs, rfl, rfl⟩, hs⟩
  obtain ⟨path, lastSeg, hseg, hlast⟩ := hseg
  refine ⟨rem, path, lastSeg, hrem, hseg,
    createPathFolderPairs_eq body '/' rem path lastSeg hrem hseg, ?_, ?_⟩
  · simp [starIndices_length]
    omega
  · intro hp k hk
    have hk1 : lastSeg[k]? = some '*' := by
      have := (List.mem_filter.mp hk).2
      simpa using this
    rw [hp]
    exact filepathJoin_dot_cut lastSeg k hlast hk1

theorem C16_folder_pairs_witness :
    createPathFolderPairs ("repo/a/x*y*".toList ++ "/".toList)
      = some [⟨"a".toList, "x*y*".toList⟩, ⟨"a/x*".toList, "*y*".toList⟩,
          ⟨"a/x*y*".toList, "*".toList⟩] ∧
    ∃ rem path lastSeg,
      (('/' ∉ removeChar ')' (removeChar '(' "repo/a/x*y*".toList) ∧
          rem = removeChar ')' (removeChar '(' "repo/a/x*y*".toList)) ∨
        ∃ repo, '/' ∉ repo ∧
          removeChar ')' (removeChar '(' "repo/a/x*y*".toList) = repo ++ '/' :: rem) ∧
      (('/' ∉ rem ∧ lastSeg = rem ∧ path = ".".toList) ∨
        ('/' ∉ lastSeg ∧ rem = path ++ '/' :: lastSeg)) ∧
      createPathFolderPairs ("repo/a/x*y*".toList ++ "/".toList)
        = some (⟨path, lastSeg⟩ :: (starIndices lastSeg).map (fun k =>
            (⟨filepathJoin [path, lastSeg.take (k + 1)], lastSeg.drop k⟩ : PathFilePair))) ∧
      (⟨path, lastSeg⟩ :: (starIndices lastSeg).map (fun k =>
            (⟨filepathJoin [path, lastSeg.take (k + 1)], lastSeg.drop k⟩ : PathFilePair))).length
        = 1 + lastSeg.count '*' ∧
      (path = ".".toList → ∀ k ∈ starIndices lastSeg,
        filepathJoin [path, lastSeg.take (k + 1)] = lastSeg.take (k + 1)) :=
  ⟨by decide, C16_folder_pairs "repo/a/x*y*".toList⟩

/-- C17: with no property filter `BuildAqlSearchQuery` is total: for every search
pattern, recursive flag and return-field list it returns a query and no error,
without any slice or index out of range; the normalized pattern always contains a
`/`, every candidate string built in `createPathFilePairs` contains exactly one
`/` (its split has two parts), and `createPathFilePairs` never returns an empty
list. -/
theorem C17_total_without_props {ε : Type} (splitProp : Str → Str × Str × Option ε)
    (searchPattern : Str) (recursive : Bool) (fields : List Str) :
    (∃ q, BuildAqlSearchQuery splitProp searchPattern recursive [] fields = some (q, none) ∧
      q ≠ []) ∧
    '/' ∈ prepareSearchPattern searchPattern ∧
    (∀ pattern, ∃ pairs, createPathFilePairs pattern recursive = some pairs ∧ pairs ≠ []) ∧
    (∀ name, '/' ∉ name → ∀ i, i + 1 < (strSplit '*' name).length →
      (joinSections i ((strSplit '*' name).getD i [] ++ "*/".toList) 0
          (strSplit '*' name) []).count '/' = 1 ∧
      (strSplit '/' (joinSections i ((strSplit '*' name).getD i [] ++ "*/".toList) 0
          (strSplit '*' name) [])).length = 2) := by
  refine ⟨?_, prepareSearchPattern_slash searchPattern,
    fun pattern => createPathFilePairs_total pattern recursive,
    fun name hn i hi => candidate_one_slash name hn i hi⟩
  obtain ⟨repo, rest, hprep, hrepo⟩ :=
    exists_first_split '/' _ (prepareSearchPattern_slash searchPattern)
  obtain ⟨pairs, hpairs, hne⟩ := createPathFilePairs_total rest recursive
  rw [BuildAqlSearchQuery_eq splitProp searchPattern recursive [] fields repo rest pairs
    hprep hrepo hpairs hne]
  have hq : buildPropsQuery splitProp [] = ([], none) := rfl
  rw [hq]
  exact ⟨_, rfl, by simp⟩

theorem C17_total_without_props_witness :
    '/' ∉ "x*y*z".toList ∧ 1 + 1 < (strSplit '*' "x*y*z".toList).length ∧
    (joinSections 1 ((strSplit '*' "x*y*z".toList).getD 1 [] ++ "*/".toList) 0
        (strSplit '*' "x*y*z".toList) []) = "x*y*/*z".toList ∧
    (joinSections 1 ((strSplit '*' "x*y*z".toList).getD 1 [] ++ "*/".toList) 0
        (strSplit '*' "x*y*z".toList) []).count '/' = 1 ∧
    (∃ q, BuildAqlSearchQuery SplitProp [] true [] [] = some (q, none) ∧ q ≠ []) :=
  ⟨by decide, by decide, by decide,
    ((C17_total_without_props SplitProp [] true []).2.2.2 "x*y*z".toList (by decide) 1
      (by decide)).1,
    (C17_total_without_props SplitProp [] true []).1⟩

/-- C18: `Files.GetSpecType` returns one of `WILDCARD`, `SIMPLE`, `AQL` if and
only if the Pattern or the raw body of the entry is non-empty; with both empty it
returns the empty `SpecType`, which is none of the three; and `SpecFiles.Get`
returns such an empty entry for an index at or past the end of the list. -/
theorem C18_spec_type_defined (IsWildcardPattern : Str → Bool) (files : Files)
    (spec : SpecFiles) (index : Int) :
    ((files.GetSpecType IsWildcardPattern = WILDCARD ∨
        files.GetSpecType IsWildcardPattern = SIMPLE ∨
        files.GetSpecType IsWildcardPattern = AQL) ↔
      (files.Pattern ≠ [] ∨ files.Aql.ItemsFind ≠ [])) ∧
    (files.Pattern = [] → files.Aql.ItemsFind = [] →
      files.GetSpecType IsWildcardPattern = []) ∧
    (([] : SpecType) ≠ WILDCARD ∧ ([] : SpecType) ≠ SIMPLE ∧ ([] : SpecType) ≠ AQL) ∧
    ((spec.Files.length : Int) ≤ index →
      spec.Get index = some Files.zero ∧
      Files.zero.Pattern = [] ∧ Files.zero.Aql.ItemsFind = [] ∧
      Files.zero.GetSpecType IsWildcardPattern = []) := by
  have h1 : ([] : SpecType) ≠ WILDCARD := by decide
  have h2 : ([] : SpecType) ≠ SIMPLE := by decide
  have h3 : ([] : SpecType) ≠ AQL := by decide
  refine ⟨?_, ?_, ⟨h1, h2, h3⟩, ?_⟩
  · unfold Files.GetSpecType
    by_cases hp : files.Pattern = []
    · by_cases hb : files.Aql.ItemsFind = []
      · simp [hp, hb, h1, h2, h3]
      · simp [hp, hb]
    · cases hwc : IsWildcardPattern files.Pattern
      · simp [hp, hwc]
      · simp [hp, hwc]
  · intro hp hb
    simp [Files.GetSpecType, hp, hb]
  · intro hidx
    have hlt : ¬ (index < (spec.Files.length : Int)) := by omega
    refine ⟨by simp [SpecFiles.Get, hlt], rfl, rfl, ?_⟩
    simp [Files.GetSpecType, Files.zero]

theorem C18_spec_type_defined_witness :
    ((([⟨"a".toList, [], [], [], [], [], ⟨[]⟩⟩] : List Files).length : Int) ≤ 1) ∧
    SpecFiles.Get ⟨[⟨"a".toList, [], [], [], [], [], ⟨[]⟩⟩]⟩ 1 = some Files.zero ∧
    Files.zero.GetSpecType (fun s => s.contains '*') = [] :=
  ⟨by decide,
    ((C18_spec_type_defined (fun s => s.contains '*') Files.zero
      ⟨[⟨"a".toList, [], [], [], [], [], ⟨[]⟩⟩]⟩ 1).2.2.2 (by decide)).1,
    (C18_spec_type_defined (fun s => s.contains '*') Files.zero
      ⟨[⟨"a".toList, [], [], [], [], [], ⟨[]⟩⟩]⟩ 1).2.1 rfl rfl⟩

/-- C19, as stated, fails: the pattern `a/(` is normalized to `a/`, which ends with
`/`, and normalizing `a/` gives `a/*`. -/
theorem C19_counterexample :
    prepareSearchPattern "a/(".toList = "a/".toList ∧
    hasSuffixChar '/' (prepareSearchPattern "a/(".toList) = true ∧
    prepareSearchPattern (prepareSearchPattern "a/(".toList) = "a/*".toList ∧
    prepareSearchPattern (prepareSearchPattern "a/(".toList)
      ≠ prepareSearchPattern "a/(".toList := by
  decide

/-- C19 (amended): for every pattern `p` that ends with `/`, or whose text with
the parentheses removed does not end with `/`, normalization is idempotent and the
normalized pattern does not end with `/`; for every pattern the normalized pattern
contains no parenthesis. -/
theorem C19_normalization_idempotent (p : Str) :
    ((hasSuffixChar '/' p = true ∨
        hasSuffixChar '/' (removeChar ')' (removeChar '(' p)) = false) →
      prepareSearchPattern (prepareSearchPattern p) = prepareSearchPattern p ∧
      hasSuffixChar '/' (prepareSearchPattern p) = false) ∧
    '(' ∉ prepareSearchPattern p ∧ ')' ∉ prepareSearchPattern p := by
  refine ⟨?_, prepareSearchPattern_no_paren p⟩
  intro h
  have hsuf := prepareSearchPattern_suffix p h
  exact ⟨prepareSearchPattern_fixed _ (prepareSearchPattern_slash p)
    (prepareSearchPattern_no_paren p).1 (prepareSearchPattern_no_paren p).2 hsuf, hsuf⟩

theorem C19_normalization_idempotent_witness :
    (hasSuffixChar '/' "re(po)/a(b)/".toList = true ∨
      hasSuffixChar '/' (removeChar ')' (removeChar '(' "re(po)/a(b)/".toList)) = false) ∧
    prepareSearchPattern "re(po)/a(b)/".toList = "repo/ab/*".toList ∧
    prepareSearchPattern (prepareSearchPattern "re(po)/a(b)/".toList)
      = prepareSearchPattern "re(po)/a(b)/".toList ∧
    hasSuffixChar '/' (prepareSearchPattern "re(po)/a(b)/".toList) = false :=
  ⟨by decide, by decide,
    ((C19_normalization_idempotent "re(po)/a(b)/".toList).1 (by decide)).1,
    ((C19_normalization_idempotent "re(po)/a(b)/".toList).1 (by decide)).2⟩

set_option maxRecDepth 100000 in
/-- C20 fails on the code at the JSON text `{"items.find":{"a":1}}`: the index of
the second `{` is taken in the text after the first `{` and then used in the whole
text, one character too early, so the stored body is `:{"a":1}` and starts with
the colon; with a space before the body that space is what is cut in and stripped
(second part). -/
theorem C20_failing_input :
    Aql.UnmarshalJSON "\x7b\"items.find\":\x7b\"a\":1\x7d\x7d".toList
      = some ":\x7b\"a\":1\x7d".toList ∧
    Aql.UnmarshalJSON "\x7b\"items.find\":\x7b\"a\":1\x7d\x7d".toList
      ≠ some "\x7b\"a\":1\x7d".toList ∧
    Aql.UnmarshalJSON "\x7b\"items.find\": \x7b\"a\":1\x7d\x7d".toList
      = some "\x7b\"a\":1\x7d".toList := by
  decide

end Aql
